import Mathlib

/-!
Shallow embedding of the Official Site Discovery & Contact Extraction engine
(`site_selector.py`, `site_scraper.py`) of the sales-lead-builder repository,
together with proofs of the behavioural properties claimed in its specification.

External collaborators are modelled as follows:
* the HTTP fetcher is a parameter `fetch : String → Option PageContent`;
* BeautifulSoup's view of a fetched document is carried directly on
  `PageContent` (`anchors` models `soup.find_all("a", href=True)` in document
  order, `snippets` models `soup.stripped_strings`, `text` models
  `soup.get_text(" ", strip=True)`);
* `urllib.parse`, Python's `re` scans, `tldextract` and the `phonenumbers`
  library are modelled by executable functions, documented at each definition.
-/

/-- Model of Python string containment helpers: `pat` is a prefix of `s`. -/
def charsStarts : List Char → List Char → Bool
  | [], _ => true
  | _ :: _, [] => false
  | a :: pat, b :: s => a == b && charsStarts pat s

/-- Model of Python `pat in s` on character lists: `pat` occurs contiguously in `s`. -/
def charsHasSub (pat : List Char) : List Char → Bool
  | [] => charsStarts pat []
  | c :: s => charsStarts pat (c :: s) || charsHasSub pat s

/-- Model of the Python expression `pat in hay` for strings. -/
def strHasSub (hay pat : String) : Bool := charsHasSub pat.data hay.data

/-- Model of Python `hay.startswith(pat)`. -/
def strStarts (hay pat : String) : Bool := charsStarts pat.data hay.data

/-- Everything after the first occurrence of `pat` (the empty list when `pat`
does not occur).  Used to model `urllib` splitting at `"://"`. -/
def charsAfterSub (pat : List Char) : List Char → List Char
  | [] => []
  | c :: s => if charsStarts pat (c :: s) then (c :: s).drop pat.length
              else charsAfterSub pat s

/-- ASCII lower-casing of one character: the effect of Python `str.lower` on
the ASCII and Japanese texts of this development (other characters unchanged). -/
def charToLower (c : Char) : Char :=
  if 65 ≤ c.toNat ∧ c.toNat ≤ 90 then Char.ofNat (c.toNat + 32) else c

/-- ASCII upper-casing of one character (Python `str.upper` on these texts). -/
def charToUpper (c : Char) : Char :=
  if 97 ≤ c.toNat ∧ c.toNat ≤ 122 then Char.ofNat (c.toNat - 32) else c

/-- Model of Python `s.lower()` on the texts of this development. -/
def strToLower (s : String) : String := ⟨s.data.map charToLower⟩

/-- Model of Python `s.upper()` on the texts of this development. -/
def strToUpper (s : String) : String := ⟨s.data.map charToUpper⟩

/-- ASCII whitespace, the class stripped by Python `str.strip()` in these texts. -/
def isSpaceChar (c : Char) : Bool := c == ' ' || c == '\t' || c == '\n' || c == '\r'

/-- Model of Python `s.strip()`: whitespace removed from both ends. -/
def strim (s : String) : String :=
  ⟨((s.data.dropWhile isSpaceChar).reverse.dropWhile isSpaceChar).reverse⟩

/-- Lexicographic comparison of character lists by code point: the order
Python `sorted` uses on strings. -/
def charsLe : List Char → List Char → Bool
  | [], _ => true
  | _ :: _, [] => false
  | a :: s, b :: t =>
    if a.toNat < b.toNat then true
    else if b.toNat < a.toNat then false
    else charsLe s t

/-- Model of Python string comparison `s <= t`. -/
def strLe (s t : String) : Bool := charsLe s.data t.data

/-- Model of Python `s.replace(pat, repl)` for a non-empty `pat`: left to
right, non-overlapping.  The fuel, set to the length of `s`, never runs out
because every step consumes at least one character. -/
def charsReplaceAux (pat repl : List Char) : Nat → List Char → List Char
  | 0, s => s
  | _ + 1, [] => []
  | fuel + 1, c :: s =>
    if charsStarts pat (c :: s) && !pat.isEmpty then
      repl ++ charsReplaceAux pat repl fuel ((c :: s).drop pat.length)
    else c :: charsReplaceAux pat repl fuel s

/-- Model of Python `s.replace(pat, repl)`. -/
def strReplace (s pat repl : String) : String :=
  ⟨charsReplaceAux pat.data repl.data s.data.length s.data⟩

/-- Everything after the last occurrence of the character `c` (the whole list
when `c` does not occur). -/
def afterLastChar (c : Char) (s : List Char) : List Char :=
  (s.reverse.takeWhile (· != c)).reverse

/-- Model of Python `s.split(c)` for a single-character separator. -/
def splitOnChar (c : Char) : List Char → List (List Char)
  | [] => [[]]
  | d :: s =>
    match splitOnChar c s with
    | [] => [[]]
    | g :: gs => if d == c then [] :: g :: gs else (d :: g) :: gs

/-- Model of Python `".".join(…)` on character lists. -/
def joinDots : List (List Char) → List Char
  | [] => []
  | [g] => g
  | g :: gs => g ++ '.' :: joinDots gs

/-- Model of `urlparse(url)._replace(fragment="").geturl()`: `urlparse` takes the
fragment to be everything after the first `#`, so reassembling with an empty
fragment keeps exactly the part of the URL before the first `#`. -/
def stripFragment (url : String) : String := ⟨url.data.takeWhile (· != '#')⟩

/-- Model of `urllib`'s test that a reference has its own scheme: the first
character outside `[:/?#]` ends with `:` and the scheme part is non-empty. -/
def hasOwnScheme (href : String) : Bool :=
  let pre := href.data.takeWhile (fun c => c != ':' && c != '/' && c != '?' && c != '#')
  !pre.isEmpty && (href.data.drop pre.length).headD ' ' == ':'

/-- Model of `urlparse(url).scheme` for the absolute `scheme://…` URLs used in
this development (the scheme is lower-cased by `urlparse`). -/
def urlScheme (url : String) : String :=
  if strHasSub url "://" then strToLower ⟨url.data.takeWhile (· != ':')⟩ else ""

/-- Model of `urlparse(url).netloc` for the absolute `scheme://…` URLs used in
this development: the part between `://` and the next `/`, `?` or `#`
(case preserved, as `urlparse` preserves it). -/
def urlNetloc (url : String) : String :=
  if strHasSub url "://" then
    ⟨(charsAfterSub "://".data url.data).takeWhile
      (fun c => c != '/' && c != '?' && c != '#')⟩
  else ""

/-- Model of `urlparse(url).hostname`: the netloc with user-info (up to the last
`@`) and the `:port` part removed, lower-cased. -/
def urlHostname (url : String) : String :=
  let netloc := urlNetloc url
  strToLower ⟨(afterLastChar '@' netloc.data).takeWhile (· != ':')⟩

/-- Model of `urllib.parse.urljoin(base, href)` for the URL shapes appearing in
this development: a reference with its own scheme (absolute URL, `mailto:` …)
is returned as is, a protocol-relative reference gets the base's scheme, a
root-relative reference is resolved against the base's scheme and netloc, and
any other reference replaces everything after the last `/` of the base's path. -/
def urljoin (base href : String) : String :=
  if href = "" then base
  else if hasOwnScheme href then href
  else if strStarts href "//" then urlScheme base ++ ":" ++ href
  else if strStarts href "/" then urlScheme base ++ "://" ++ urlNetloc base ++ href
  else
    let basePath := base.data.takeWhile (fun c => c != '?' && c != '#')
    let kept := (basePath.reverse.dropWhile (· != '/')).reverse
    let root := urlScheme base ++ "://" ++ urlNetloc base
    if kept.length ≤ root.length then root ++ "/" ++ href else ⟨kept⟩ ++ href

/-- Insertion step of the sort modelling Python `sorted` on strings. -/
def insSorted (x : String) : List String → List String
  | [] => [x]
  | y :: t => if strLe x y then x :: y :: t else y :: insSorted x t

/-- Model of Python `sorted` on a list of strings (ascending, stable). -/
def sortStrings : List String → List String
  | [] => []
  | x :: t => insSorted x (sortStrings t)

/-- Lookup in an insertion-ordered association list modelling a Python `dict`. -/
def lookupKey (k : String) : List (String × String) → Option String
  | [] => none
  | kv :: t => if kv.1 = k then some kv.2 else lookupKey k t

/-- Model of the Python `dict` assignment `d[k] = v`: overwrite the value in
place when the key exists, otherwise append the pair at the end. -/
def upsert (k v : String) : List (String × String) → List (String × String)
  | [] => [(k, v)]
  | kv :: t => if kv.1 = k then (k, v) :: t else kv :: upsert k v t

/-- Index of the first occurrence of `x` (the length of the list when absent). -/
def firstIdx {α : Type} [DecidableEq α] (x : α) : List α → Nat
  | [] => 0
  | y :: t => if y = x then 0 else firstIdx x t + 1

/-- One ranked hit from the search provider (`models.SearchResult`). -/
structure SearchResult where
  title : String
  url : String
  snippet : Option String := none
  rank : Option Nat := none
deriving Repr, DecidableEq

/-- One `<a href=…>` element of a parsed document, in document order:
`text` models `anchor.get_text()` and `href` the raw `href` attribute. -/
structure Anchor where
  text : String
  href : String
deriving Repr, DecidableEq

/-- A fetched page (`models.PageContent`), with BeautifulSoup's view of the
HTML carried explicitly (see file header). -/
structure PageContent where
  url : String
  text : String
  anchors : List Anchor := []
  snippets : List String := []
deriving Repr, DecidableEq

/-- The configuration fields of `config.Settings` consumed by the crawler. -/
structure Settings where
  crawler_max_pages : Nat := 6
  crawler_max_depth : Nat := 2
deriving Repr, DecidableEq

/-- The mutable accumulator of `extract_contact_info` (`models.ExtractionResult`).
The `sns` dict is modelled as an insertion-ordered association list. -/
structure ExtractionResult where
  contact_form_url : Option String := none
  email_main : Option String := none
  email_role_based : List String := []
  email_guessed : List String := []
  phone_main : Option String := none
  fax_main : Option String := none
  sns : List (String × String) := []
  evidence_sources : List String := []
deriving Repr, DecidableEq

/-- The keyword vocabulary `CONTACT_KEYWORDS` of `site_scraper.py`. -/
def CONTACT_KEYWORDS : List String :=
  ["contact", "inquiry", "form", "お問い合わせ", "問合せ", "連絡", "資料請求"]

/-- The role vocabulary `ROLE_EMAIL_KEYWORDS` of `site_scraper.py`. -/
def ROLE_EMAIL_KEYWORDS : List String :=
  ["info", "sales", "support", "contact", "inquiry", "customer", "hello", "pr", "press", "ir"]

/-- The platform table `SNS_PATTERNS` of `site_scraper.py`. -/
def SNS_PATTERNS : List (String × List String) :=
  [("sns_linkedin", ["linkedin.com/company", "linkedin.com/in"]),
   ("sns_x", ["twitter.com", "x.com"]),
   ("sns_instagram", ["instagram.com"]),
   ("sns_facebook", ["facebook.com", "fb.me"])]

/-- ASCII letter test, both cases (the email pattern is compiled `IGNORECASE`). -/
def isAlphaAscii (c : Char) : Bool :=
  decide ((65 ≤ c.toNat ∧ c.toNat ≤ 90) ∨ (97 ≤ c.toNat ∧ c.toNat ≤ 122))

/-- ASCII digit test. -/
def isDigitChar (c : Char) : Bool := decide (48 ≤ c.toNat ∧ c.toNat ≤ 57)

/-- Character class of the local part of `EMAIL_PATTERN` (case-insensitive). -/
def emailLocalChar (c : Char) : Bool :=
  isAlphaAscii c || isDigitChar c || c == '.' || c == '_' || c == '%' || c == '+' || c == '-'

/-- Character class of the domain part of `EMAIL_PATTERN` (case-insensitive). -/
def emailDomChar (c : Char) : Bool := isAlphaAscii c || isDigitChar c || c == '.' || c == '-'

/-- Positions of `.` in a character list, from the last one to the first: the
order in which a backtracking regex engine offers the split for the final
dot of `EMAIL_PATTERN` after the greedy domain run. -/
def dotPositionsDesc (dm : List Char) : List Nat :=
  (List.range dm.length).reverse.filter (fun j => dm.getD j ' ' == '.')

/-- Attempt of the tail of `EMAIL_PATTERN` at dot position `j` of the maximal
domain-character run `dm`: a non-empty domain part before the dot and at least
two letters after it; the match is the part of `dm` actually consumed. -/
def emailDomainAt (dm : List Char) (j : Nat) : Option (List Char) :=
  if j = 0 then none
  else
    let tail := (dm.drop (j + 1)).takeWhile isAlphaAscii
    if 2 ≤ tail.length then some (dm.take j ++ '.' :: tail) else none

/-- Greedy match of the domain of `EMAIL_PATTERN` inside the maximal
domain-character run: the latest dot that leaves at least two letters wins. -/
def emailDomainMatch (dm : List Char) : Option (List Char) :=
  (dotPositionsDesc dm).findSome? (emailDomainAt dm)

/-- Model of one attempt of Python's regex engine to match `EMAIL_PATTERN` at
the head of `s`: the greedy local-part run must be followed by `@` and a
matching domain.  Returns the match and the characters consumed. -/
def emailMatchAtHead (s : List Char) : Option (List Char × Nat) :=
  let lp := s.takeWhile emailLocalChar
  if lp.isEmpty then none
  else
    match s.drop lp.length with
    | '@' :: rest =>
      let dm := rest.takeWhile emailDomChar
      match emailDomainMatch dm with
      | some dpart => some (lp ++ '@' :: dpart, lp.length + 1 + dpart.length)
      | none => none
    | _ => none

/-- Scan loop of `EMAIL_PATTERN.findall`: non-overlapping matches, left to
right.  The fuel starts at the length of the text and never runs out because
every step consumes at least one character. -/
def emailFindAux : Nat → List Char → List (List Char)
  | 0, _ => []
  | _ + 1, [] => []
  | fuel + 1, c :: s =>
    match emailMatchAtHead (c :: s) with
    | some (m, k) => m :: emailFindAux fuel ((c :: s).drop k)
    | none => emailFindAux fuel s

/-- Model of `EMAIL_PATTERN.findall(text)`. -/
def emailFindall (text : String) : List String :=
  (emailFindAux text.data.length text.data).map (fun cs => ⟨cs⟩)

/-- Model of `_is_email`: `EMAIL_PATTERN.fullmatch(email.strip())`.  The local
part can contain no `@`, so the string must split at its unique `@` into a
non-empty local-character run and a domain whose maximal domain-character run
is matched entirely. -/
def _is_email (email : String) : Bool :=
  let t := (strim email).data
  let lp := t.takeWhile emailLocalChar
  !lp.isEmpty &&
    (match t.drop lp.length with
     | '@' :: rest =>
       rest.all emailDomChar &&
         (match emailDomainMatch rest with
          | some dpart => dpart.length == rest.length
          | none => false)
     | _ => false)

/-- Model of `_is_role_email`: the local part, with `-`/`_` stripped and
lower-cased, starts with or contains one of the role keywords. -/
def _is_role_email (email : String) : Bool :=
  let local_part : String := ⟨email.data.takeWhile (· != '@')⟩
  let normalized := strToLower (strReplace (strReplace local_part "-" "") "_" "")
  ROLE_EMAIL_KEYWORDS.any (fun k => strStarts normalized k || strHasSub normalized k)

/-- Model of the Python set used in `_extract_emails_from_page`: add an element
unless it is already present. -/
def addToSet (x : String) (l : List String) : List String :=
  if x ∈ l then l else l ++ [x]

/-- Model of `_extract_emails_from_page`: e-mails from `mailto:` anchors, then
from the regex scan of the visible text, deduplicated and finally sorted. -/
def _extract_emails_from_page (page : PageContent) : List String :=
  let fromMailto := page.anchors.foldl
    (fun acc a =>
      if strStarts a.href "mailto:" then
        let email : String := ⟨(a.href.data.dropWhile (· != ':')).drop 1⟩
        if _is_email email then addToSet (strToLower email) acc else acc
      else acc) []
  let withText := (emailFindall page.text).foldl
    (fun acc m => if _is_email m then addToSet (strToLower m) acc else acc) fromMailto
  sortStrings withText

/-- Model of `_find_contact_link`: the first anchor whose stripped, lower-cased
text or lower-cased href contains a contact keyword, resolved to an absolute
URL. -/
def _find_contact_link (anchors : List Anchor) (current_url : String) : Option String :=
  anchors.findSome? (fun anchor =>
    let label := strToLower (strim anchor.text)
    let joined := urljoin current_url anchor.href
    let haystack := label ++ " " ++ strToLower anchor.href
    if CONTACT_KEYWORDS.any (fun k => strHasSub haystack k) then some joined else none)

/-- Model of `_extract_sns_links`: every anchor is resolved and tested against
each platform's substring patterns; a match assigns (overwriting) the
platform's entry of the page-local dict. -/
def _extract_sns_links (anchors : List Anchor) (current_url : String) :
    List (String × String) :=
  anchors.foldl
    (fun results a =>
      let abs_url := urljoin current_url a.href
      let lower := strToLower abs_url
      SNS_PATTERNS.foldl
        (fun res kp =>
          if kp.2.any (fun pat => strHasSub lower pat) then upsert kp.1 abs_url res else res)
        results)
    []

/-- Model of `_guess_role_emails`: the five fixed role guesses against the
lower-cased domain, or nothing when the domain is empty. -/
def _guess_role_emails (domain : String) : List String :=
  let d := strToLower domain
  if d = "" then []
  else ["info@" ++ d, "contact@" ++ d, "sales@" ++ d, "support@" ++ d, "inquiry@" ++ d]

/-- Separator class `[-‐–―\s]` of `PHONE_PATTERN` (hyphen variants and the
whitespace characters occurring in the texts of this development). -/
def isPhoneSep (c : Char) : Bool :=
  c == '-' || c == '‐' || c == '–' || c == '―' || c == ' ' || c == '\t' || c == '\n' || c == '\r'

/-- Candidate lengths, longest first, of a greedy `[0-9]` repetition of between
`lo` and `hi` digits at the head of `s` (the backtracking order of the engine). -/
def digitRunOpts (s : List Char) (lo hi : Nat) : List Nat :=
  ((List.range (hi + 1)).reverse.filter
    (fun n => lo ≤ n && n ≤ s.length && (s.take n).all isDigitChar))

/-- Candidate lengths of an optional separator at the head of `s`, in the
greedy order: consume it first when present. -/
def sepOpts (s : List Char) : List Nat :=
  if isPhoneSep (s.headD 'x') then [1, 0] else [0]

/-- Candidate lengths of the optional `(?:\+?81[-\s]?)?` head of `PHONE_PATTERN`,
in the engine's backtracking order (greedy, `+` first, separator first). -/
def phonePrefixOpts (s : List Char) : List Nat :=
  (if charsStarts "+81".data s then (sepOpts (s.drop 3)).map (· + 3) else []) ++
  (if charsStarts "81".data s then (sepOpts (s.drop 2)).map (· + 2) else []) ++ [0]

/-- Model of one attempt of `PHONE_PATTERN` at the head of `s`: optional `+81`,
a literal `0`, and three greedy digit groups with optional separators.  Returns
the number of characters matched. -/
def phoneMatchAtHead (s : List Char) : Option Nat :=
  (phonePrefixOpts s).findSome? (fun pl =>
    let s1 := s.drop pl
    if s1.headD ' ' == '0' then
      let s2 := s1.drop 1
      (digitRunOpts s2 1 4).findSome? (fun g1 =>
        let s3 := s2.drop g1
        (sepOpts s3).findSome? (fun p1 =>
          let s4 := s3.drop p1
          (digitRunOpts s4 1 4).findSome? (fun g2 =>
            let s5 := s4.drop g2
            (sepOpts s5).findSome? (fun p2 =>
              let s6 := s5.drop p2
              (digitRunOpts s6 3 4).findSome? (fun g3 =>
                some (pl + 1 + g1 + p1 + g2 + p2 + g3))))))
    else none)

/-- Scan loop of `PHONE_PATTERN.findall`: non-overlapping matches, left to
right; every match consumes at least one character, so fuel equal to the text
length suffices. -/
def phoneFindAux : Nat → List Char → List (List Char)
  | 0, _ => []
  | _ + 1, [] => []
  | fuel + 1, c :: s =>
    match phoneMatchAtHead (c :: s) with
    | some k => ((c :: s).take k) :: phoneFindAux fuel ((c :: s).drop k)
    | none => phoneFindAux fuel s

/-- Model of `PHONE_PATTERN.findall(text)`. -/
def phoneFindall (text : String) : List String :=
  (phoneFindAux text.data.length text.data).map (fun cs => ⟨cs⟩)

/-- Modelled from the behaviour of the external `phonenumbers` library on the
Japanese numbers this engine handles: a parsed number is a country code with
the national significant number (the trunk `0` stripped for domestic input). -/
structure PhoneNumber where
  country_code : Nat
  national_number : List Char
deriving Repr, DecidableEq

/-- Modelled from `phonenumbers.parse(s, None)` for international input: the
string must start with `+81` followed by digits only (the model covers the
Japanese country code, the one this engine's inputs use). -/
def phoneParseIntl (s : String) : Option PhoneNumber :=
  if strStarts s "+81" then
    let rest := s.data.drop 3
    if !rest.isEmpty && rest.all isDigitChar then some ⟨81, rest⟩ else none
  else none

/-- Modelled from `phonenumbers.parse(s, "JP")` for domestic input: digits
only, with one leading trunk `0` stripped when present. -/
def phoneParseJP (s : String) : Option PhoneNumber :=
  if s.data.all isDigitChar && !s.data.isEmpty then
    match s.data with
    | '0' :: rest => some ⟨81, rest⟩
    | ds => some ⟨81, ds⟩
  else none

/-- Modelled from `phonenumbers.is_valid_number` for Japan: the national
significant number has nine or ten digits and does not start with `0`. -/
def phoneIsValid (pn : PhoneNumber) : Bool :=
  pn.country_code == 81 &&
    (pn.national_number.length == 9 || pn.national_number.length == 10) &&
    pn.national_number.all isDigitChar &&
    (pn.national_number.headD '0') != '0'

/-- Modelled from `phonenumbers.format_number(…, E164)`: `+`, country code,
national significant number. -/
def phoneFormatE164 (pn : PhoneNumber) : String :=
  "+81" ++ (⟨pn.national_number⟩ : String)

/-- Model of `_normalize_phone`: keep digits and `+`, parse internationally
when the cleaned string starts with `+` and as a Japanese number otherwise,
reject invalid numbers, and format valid ones canonically. -/
def _normalize_phone (raw : String) : Option String :=
  let digits : String := ⟨raw.data.filter (fun c => isDigitChar c || c == '+')⟩
  if digits = "" then none
  else
    match (if strStarts digits "+" then phoneParseIntl digits else phoneParseJP digits) with
    | none => none
    | some parsed => if phoneIsValid parsed then some (phoneFormatE164 parsed) else none

/-- Model of `_extract_phone_fax`: scan the stripped text snippets — a snippet
with a fax marker updates the fax candidate, otherwise a snippet with a phone
marker updates the phone candidate; when either is still missing, a regex
sweep of the full text fills the phone (never the fax). -/
def _extract_phone_fax (page : PageContent) : Option String × Option String :=
  let scanned := page.snippets.foldl
    (fun (pf : Option String × Option String) snippet =>
      if strHasSub (strToUpper snippet) "FAX" || strHasSub snippet "ＦＡＸ" then
        match _normalize_phone snippet with
        | some candidate => (pf.1, some candidate)
        | none => pf
      else if ["TEL", "電話", "Phone", "電話番号"].any (fun k => strHasSub snippet k) then
        match _normalize_phone snippet with
        | some candidate => (some candidate, pf.2)
        | none => pf
      else pf)
    (none, none)
  if scanned.1 = none ∨ scanned.2 = none then
    ((phoneFindall page.text).foldl
      (fun phone m =>
        match _normalize_phone m with
        | some normalized => if phone = none then some normalized else phone
        | none => phone)
      scanned.1,
     scanned.2)
  else scanned

/-- Modelled from the public-suffix data consulted by the external `tldextract`
library, restricted to the suffixes relevant to this development. -/
def knownPublicSuffixes : List String :=
  ["co.jp", "ne.jp", "or.jp", "ac.jp", "go.jp", "jp", "com", "net", "org", "io", "co.uk", "uk"]

/-- Model of `pick_best_domain` (`tldextract.extract` followed by joining the
non-empty domain and suffix parts): the longest known public suffix of the
host is split off and the label before it becomes the domain. -/
def pick_best_domain (url : String) : String :=
  let host := urlHostname url
  let labels := splitOnChar '.' host.data
  let n := labels.length
  match (List.range (n + 1)).reverse.find?
      (fun k => 0 < k && k ≤ n && (⟨joinDots (labels.drop (n - k))⟩ : String) ∈ knownPublicSuffixes) with
  | some k =>
    let sfx := joinDots (labels.drop (n - k))
    if k < n then ⟨labels.getD (n - k - 1) [] ++ '.' :: sfx⟩ else ⟨sfx⟩
  | none => ⟨labels.getLastD []⟩

/-- Deduplicated copy of a string list, keeping first occurrences: the content
of the Python set built from the list. -/
def dedupStr (l : List String) : List String := l.dedup

/-- Contact-form step of the page loop of `extract_contact_info`: the state is
the extraction accumulator paired with the evidence additions so far. -/
def stepContact (page : PageContent) (st : ExtractionResult × List String) :
    ExtractionResult × List String :=
  if st.1.contact_form_url = none then
    match _find_contact_link page.anchors page.url with
    | some link => ({ st.1 with contact_form_url := some link }, st.2 ++ [link])
    | none => st
  else st

/-- Email step of the page loop of `extract_contact_info`, mirroring the
`if` / `if`-`elif` pair of the source. -/
def stepEmails (page : PageContent) (st : ExtractionResult × List String) :
    ExtractionResult × List String :=
  let emails := _extract_emails_from_page page
  let role_emails := emails.filter (fun e => _is_role_email e)
  let ex1 :=
    if role_emails ≠ [] ∧ st.1.email_main = none then
      { st.1 with email_main := role_emails.head? }
    else st.1
  let ex2 :=
    if role_emails ≠ [] then
      { ex1 with email_role_based := ex1.email_role_based ++ role_emails }
    else if emails ≠ [] ∧ ex1.email_main = none then
      { ex1 with email_main := emails.head? }
    else ex1
  (ex2, if emails ≠ [] then st.2 ++ [page.url] else st.2)

/-- Phone and fax step of the page loop of `extract_contact_info`. -/
def stepPhoneFax (page : PageContent) (st : ExtractionResult × List String) :
    ExtractionResult × List String :=
  let pf := _extract_phone_fax page
  let st1 :=
    match pf.1 with
    | some phone =>
      if st.1.phone_main = none then
        ({ st.1 with phone_main := some phone }, st.2 ++ [page.url])
      else st
    | none => st
  match pf.2 with
  | some fax =>
    if st1.1.fax_main = none then
      ({ st1.1 with fax_main := some fax }, st1.2 ++ [page.url])
    else st1
  | none => st1

/-- Social-link step of the page loop of `extract_contact_info`: keys missing
from the accumulated `sns` dict are inserted, with their URL as evidence. -/
def stepSns (page : PageContent) (st : ExtractionResult × List String) :
    ExtractionResult × List String :=
  (_extract_sns_links page.anchors page.url).foldl
    (fun st kv =>
      if lookupKey kv.1 st.1.sns = none then
        ({ st.1 with sns := st.1.sns ++ [kv] }, st.2 ++ [kv.2])
      else st)
    st

/-- Body of the `for page in pages` loop of `extract_contact_info`. -/
def processPage (st : ExtractionResult × List String) (page : PageContent) :
    ExtractionResult × List String :=
  stepSns page (stepPhoneFax page (stepEmails page (stepContact page st)))

/-- Model of `extract_contact_info`: fold the page loop, synthesize role-based
guesses when no role-based email was seen, and normalize the list fields
(`sorted(set(…))`). -/
def extract_contact_info (pages : List PageContent) (base_url : String) :
    ExtractionResult :=
  let domain := urlNetloc base_url
  let st := pages.foldl processPage ({}, [])
  let withGuesses :=
    if st.1.email_role_based = [] then
      let guessed := _guess_role_emails domain
      let ex : ExtractionResult := { st.1 with email_guessed := st.1.email_guessed ++ guessed }
      let ex : ExtractionResult :=
        if guessed ≠ [] ∧ ex.email_main = none then { ex with email_main := guessed.head? }
        else ex
      (ex, st.2 ++ guessed)
    else st
  { withGuesses.1 with
    email_role_based := sortStrings (dedupStr withGuesses.1.email_role_based),
    email_guessed := sortStrings (dedupStr withGuesses.1.email_guessed),
    evidence_sources := sortStrings (dedupStr withGuesses.2) }

/-- The keyword vocabulary `OFFICIAL_KEYWORDS` of `site_selector.py`. -/
def OFFICIAL_KEYWORDS : List String :=
  ["会社概要", "企業情報", "企業案内", "About", "Corporate", "沿革"]

/-- Model of `_normalize_company_name`: lower-case, strip legal-entity tokens,
keep only ASCII letters and digits. -/
def _normalize_company_name (name : String) : String :=
  let n := strToLower name
  let n := strReplace n "株式会社" ""
  let n := strReplace n "有限会社" ""
  let n := strReplace n "inc." ""
  let n := strReplace n "co., ltd." ""
  ⟨n.data.filter (fun c => decide ((97 ≤ c.toNat ∧ c.toNat ≤ 122) ∨ (48 ≤ c.toNat ∧ c.toNat ≤ 57)))⟩

/-- A scored pairing of a search hit with its fetched page
(`site_selector.SiteCandidate`).  Scores are multiples of one half, exact in
the source's floating point, so they are modelled as rationals. -/
structure SiteCandidate where
  search_result : SearchResult
  page : Option PageContent
  score : ℚ
deriving Repr, DecidableEq

/-- Model of Python `hay.endswith(pat)`. -/
def strEnds (hay pat : String) : Bool := charsStarts pat.data.reverse hay.data.reverse

/-- Model of `OfficialSiteSelector._score_candidate`: the fixed additive
heuristic (`re.search` of an escaped literal with `IGNORECASE` is containment
of the pattern in the lower-cased text, and matches everywhere when the
normalized name is empty). -/
def _score_candidate (normalized_name : String) (page : PageContent) : ℚ :=
  let hostname := urlHostname page.url
  let score : ℚ := 0
  let score :=
    if normalized_name ≠ "" ∧ strHasSub (_normalize_company_name hostname) normalized_name = true
    then score + 3 else score
  let score :=
    if strHasSub (strToLower page.text) (strToLower normalized_name) = true then score + 2 else score
  let score := score + ((OFFICIAL_KEYWORDS.filter (fun k => strHasSub page.text k)).length : ℚ)
  let score :=
    if CONTACT_KEYWORDS.any (fun k => strHasSub page.text k) then score + 1/2 else score
  let score := if strEnds hostname ".go.jp" then score - 2 else score
  score

/-- Loop body of `OfficialSiteSelector.select`: skip candidates with an empty
URL or a failed fetch, score the fetched page, and keep the strictly better
candidate. -/
def selectStep (fetch : String → Option PageContent) (normalized_name : String)
    (best : Option SiteCandidate) (result : SearchResult) : Option SiteCandidate :=
  if result.url = "" then best
  else
    match fetch result.url with
    | none => best
    | some page =>
      let score := _score_candidate normalized_name page
      match best with
      | none => some ⟨result, some page, score⟩
      | some b => if b.score < score then some ⟨result, some page, score⟩ else best

/-- Model of `OfficialSiteSelector.select` over an explicit fetcher. -/
def OfficialSiteSelector.select (fetch : String → Option PageContent)
    (company_name : String) (candidates : List SearchResult) : Option SiteCandidate :=
  candidates.foldl (selectStep fetch (_normalize_company_name company_name)) none

/-- The skip test of one candidate in `select`, as used by the theorems:
`none` exactly when the candidate has an empty URL or its fetch fails. -/
def candPage (fetch : String → Option PageContent) (r : SearchResult) :
    Option PageContent :=
  if r.url = "" then none else fetch r.url

/-- Model of `SiteCrawler._normalize_url`: the URL with its fragment removed. -/
def SiteCrawler._normalize_url (url : String) : String := stripFragment url

/-- The contact-keyword test applied by the crawler to the raw `href` text of a
discovered link (`any(keyword in href.lower() for keyword in CONTACT_KEYWORDS)`). -/
def isContactHref (href : String) : Bool :=
  CONTACT_KEYWORDS.any (fun k => strHasSub (strToLower href) k)

/-- The filters of the crawler's link-discovery loop: skip empty hrefs, resolve
against the fetched page's final URL, keep only same-host `http(s)` links.
Returns the absolute URL of a kept link. -/
def keepLink (base_host page_url : String) (a : Anchor) : Option String :=
  if a.href = "" then none
  else
    let abs_url := urljoin page_url a.href
    if (urlScheme abs_url = "http" ∨ urlScheme abs_url = "https") ∧ urlNetloc abs_url = base_host
    then some abs_url else none

/-- Link discovery of `SiteCrawler.crawl`: each kept link is pushed to the
front of the deque when its raw href contains a contact keyword and appended
to the back otherwise, in document order. -/
def enqueueLinks (base_host page_url : String) (depth : Nat) :
    List Anchor → List (String × Nat) → List (String × Nat)
  | [], queue => queue
  | a :: rest, queue =>
    match keepLink base_host page_url a with
    | none => enqueueLinks base_host page_url depth rest queue
    | some u =>
      if isContactHref a.href then
        enqueueLinks base_host page_url depth rest ((u, depth + 1) :: queue)
      else
        enqueueLinks base_host page_url depth rest (queue ++ [(u, depth + 1)])

/-- The entries a page's links push to the front of the deque, in document
order (they end up reversed at the front). -/
def frontEntries (base_host page_url : String) (depth : Nat) (anchors : List Anchor) :
    List (String × Nat) :=
  anchors.filterMap (fun a =>
    match keepLink base_host page_url a with
    | some u => if isContactHref a.href then some (u, depth + 1) else none
    | none => none)

/-- The entries a page's links append to the back of the deque, in document
order. -/
def backEntries (base_host page_url : String) (depth : Nat) (anchors : List Anchor) :
    List (String × Nat) :=
  anchors.filterMap (fun a =>
    match keepLink base_host page_url a with
    | some u => if isContactHref a.href then none else some (u, depth + 1)
    | none => none)

/-- Observable outcome of a crawl run: the collected pages, the URLs on which
a fetch was attempted (they passed the visited check), and the dequeued
entries, each in chronological order. -/
structure CrawlOut where
  results : List PageContent
  fetched : List String
  popped : List (String × Nat)
deriving Repr, DecidableEq

/-- Record a dequeue in a crawl outcome. -/
def addPop (e : String × Nat) (o : CrawlOut) : CrawlOut :=
  { o with popped := e :: o.popped }

/-- Record a dequeue followed by a fetch attempt in a crawl outcome. -/
def addPopFetch (e : String × Nat) (o : CrawlOut) : CrawlOut :=
  { o with popped := e :: o.popped, fetched := e.1 :: o.fetched }

/-- The `while` loop of `SiteCrawler.crawl`.  The fuel only bounds the number
of loop iterations: every terminating run of the source loop is this function
at fuel equal to its iteration count, and all verified properties hold for
every fuel. -/
def crawlLoop (s : Settings) (fetch : String → Option PageContent) (base_host : String) :
    Nat → List (String × Nat) → List String → List PageContent → CrawlOut
  | 0, _, _, results => ⟨results, [], []⟩
  | _ + 1, [], _, results => ⟨results, [], []⟩
  | fuel + 1, (url, depth) :: rest, visited, results =>
    if s.crawler_max_pages ≤ results.length then ⟨results, [], []⟩
    else
      let nurl := SiteCrawler._normalize_url url
      if nurl ∈ visited then
        addPop (url, depth) (crawlLoop s fetch base_host fuel rest visited results)
      else
        match fetch url with
        | none =>
          addPopFetch (url, depth)
            (crawlLoop s fetch base_host fuel rest (nurl :: visited) results)
        | some page =>
          if s.crawler_max_depth ≤ depth then
            addPopFetch (url, depth)
              (crawlLoop s fetch base_host fuel rest (nurl :: visited) (results ++ [page]))
          else
            addPopFetch (url, depth)
              (crawlLoop s fetch base_host fuel
                (enqueueLinks base_host page.url depth page.anchors rest)
                (nurl :: visited) (results ++ [page]))

/-- A full crawl run from `base_url`: deque seeded with `(base_url, 0)`, empty
visited set, host taken from the start URL. -/
def crawlRun (s : Settings) (fetch : String → Option PageContent) (fuel : Nat)
    (base_url : String) : CrawlOut :=
  crawlLoop s fetch (urlNetloc base_url) fuel [(base_url, 0)] [] []

/-- Model of `SiteCrawler.crawl`: the pages collected by the loop. -/
def SiteCrawler.crawl (s : Settings) (fetch : String → Option PageContent) (fuel : Nat)
    (base_url : String) : List PageContent :=
  (crawlRun s fetch fuel base_url).results

/-- The substring patterns registered for a platform key in `SNS_PATTERNS`. -/
def patternsFor (k : String) : List String :=
  match SNS_PATTERNS.find? (fun kp => kp.1 = k) with
  | some kp => kp.2
  | none => []

/-- The resolved URLs of the anchors of a page that match platform `k`, in
document order. -/
def snsMatches (k : String) (current_url : String) (anchors : List Anchor) : List String :=
  anchors.filterMap (fun a =>
    let abs_url := urljoin current_url a.href
    if (patternsFor k).any (fun pat => strHasSub (strToLower abs_url) pat)
    then some abs_url else none)

/-- The ways one page can contribute an evidence entry: its own URL when it
yields e-mails or a phone/fax, the contact-form link found on it, or one of
its stored social-link URLs. -/
def pageFact (page : PageContent) (x : String) : Prop :=
  (x = page.url ∧ (_extract_emails_from_page page ≠ [] ∨
    (_extract_phone_fax page).1 ≠ none ∨ (_extract_phone_fax page).2 ≠ none)) ∨
  _find_contact_link page.anchors page.url = some x ∨
  ∃ k, lookupKey k (_extract_sns_links page.anchors page.url) = some x

/-! ## Generic helper lemmas -/

theorem all_filterKeep {p q : Char → Bool} (l : List Char) (h : l.all q = true)
    (himp : ∀ c, q c = true → p c = true) : l.filter p = l := by
  induction l with
  | nil => rfl
  | cons c t ih =>
    simp only [List.all_cons, Bool.and_eq_true] at h
    simp [List.filter_cons, himp c h.1, ih h.2]

/-! ## C6: phone normalization -/

theorem normalize_phone_canonical_aux (ds : List Char)
    (hall : ds.all isDigitChar = true) (hlen : ds.length = 9 ∨ ds.length = 10)
    (hhead : ds.headD '0' ≠ '0') :
    _normalize_phone ⟨'+' :: '8' :: '1' :: ds⟩ = some ⟨'+' :: '8' :: '1' :: ds⟩ := by
  have hf : ('+' :: '8' :: '1' :: ds).filter (fun c => isDigitChar c || c == '+') =
      '+' :: '8' :: '1' :: ds := by
    refine all_filterKeep _ ?_ (fun c h => h)
    simp only [List.all_cons, Bool.and_eq_true]
    refine ⟨by decide, by decide, by decide, ?_⟩
    rw [List.all_eq_true] at hall ⊢
    intro x hx
    simp [hall x hx]
  have hne : ds ≠ [] := by
    intro h
    rcases hlen with h9 | h9 <;> simp [h] at h9
  have hstart : strStarts ⟨'+' :: '8' :: '1' :: ds⟩ "+" = true := by
    simp [strStarts, charsStarts]
  have hstart81 : strStarts ⟨'+' :: '8' :: '1' :: ds⟩ "+81" = true := by
    simp [strStarts, charsStarts]
  have hparse : phoneParseIntl ⟨'+' :: '8' :: '1' :: ds⟩ = some ⟨81, ds⟩ := by
    simp [phoneParseIntl, hstart81, hne, hall]
  have hvalid : phoneIsValid ⟨81, ds⟩ = true := by
    obtain ⟨d, t, rfl⟩ : ∃ d t, ds = d :: t := by
      cases ds with
      | nil => exact absurd rfl hne
      | cons d t => exact ⟨d, t, rfl⟩
    have hd : d ≠ '0' := by simpa using hhead
    rcases hlen with h | h <;>
      simp only [phoneIsValid, List.headD, List.head?, Option.getD] <;>
      simp [h, hall, hd]
  have hmk : (⟨('+' :: '8' :: '1' :: ds).filter (fun c => isDigitChar c || c == '+')⟩ : String) =
      ⟨'+' :: '8' :: '1' :: ds⟩ := by rw [hf]
  have hne' : (⟨'+' :: '8' :: '1' :: ds⟩ : String) ≠ "" := by
    intro h
    have := congrArg String.data h
    simp at this
  simp only [_normalize_phone, hmk, hne', if_false, hstart, if_true, hparse, hvalid]
  rfl

/-- C6: phone normalization is idempotent on already-canonical Japanese E.164
numbers (`+81` followed by nine or ten national digits not starting with `0`):
they are returned unchanged.  A string whose digit content does not parse as a
valid number — such as `"03-12"` — yields no value, and any value the
normalizer produces is the canonical E.164 form of a number that passed
validation, so `phone_main` and `fax_main` are never set to an invalid number. -/
theorem normalize_phone_canonical_and_rejecting :
    (∀ ds : List Char, ds.all isDigitChar = true → (ds.length = 9 ∨ ds.length = 10) →
        ds.headD '0' ≠ '0' →
        _normalize_phone ⟨'+' :: '8' :: '1' :: ds⟩ = some ⟨'+' :: '8' :: '1' :: ds⟩) ∧
    _normalize_phone "03-12" = none ∧
    (∀ raw s, _normalize_phone raw = some s →
        ∃ pn, phoneIsValid pn = true ∧ s = phoneFormatE164 pn) := by
  refine ⟨normalize_phone_canonical_aux, by decide, ?_⟩
  intro raw s h
  simp only [_normalize_phone] at h
  split at h
  · exact absurd h (by simp)
  · split at h
    · exact absurd h (by simp)
    · rename_i pn hpn
      split at h
      · rename_i hv
        exact ⟨pn, hv, by simpa using h.symm⟩
      · exact absurd h (by simp)

/-- Witness for C6 at the canonical number `+81312345678` and at `"03-12"`. -/
theorem normalize_phone_witness :
    _normalize_phone "+81312345678" = some "+81312345678" ∧
    _normalize_phone "03-12" = none := by
  refine ⟨?_, normalize_phone_canonical_and_rejecting.2.1⟩
  have h := normalize_phone_canonical_and_rejecting.1
    ['3', '1', '2', '3', '4', '5', '6', '7', '8'] (by decide) (by decide) (by decide)
  exact h

/-! ## C1 and C5: official-site selection -/

theorem candPage_eq_none (fetch : String → Option PageContent) (r : SearchResult) :
    candPage fetch r = none ↔ r.url = "" ∨ fetch r.url = none := by
  unfold candPage
  by_cases h : r.url = "" <;> simp [h]

theorem selectStep_eq (fetch : String → Option PageContent) (nn : String)
    (best : Option SiteCandidate) (r : SearchResult) :
    selectStep fetch nn best r =
      match candPage fetch r with
      | none => best
      | some page =>
        match best with
        | none => some ⟨r, some page, _score_candidate nn page⟩
        | some b =>
          if b.score < _score_candidate nn page
          then some ⟨r, some page, _score_candidate nn page⟩ else best := by
  unfold selectStep candPage
  by_cases h : r.url = "" <;> cases hf : fetch r.url <;> simp [h, hf]

theorem selectStep_none_iff (fetch : String → Option PageContent) (nn : String)
    (b : Option SiteCandidate) (r : SearchResult) :
    selectStep fetch nn b r = none ↔ b = none ∧ candPage fetch r = none := by
  rw [selectStep_eq]
  cases hcp : candPage fetch r with
  | none => simp
  | some p =>
    cases b with
    | none => simp
    | some b₀ =>
      simp only []
      split <;> simp

theorem foldl_selectStep_skip (fetch : String → Option PageContent) (nn : String) :
    ∀ (l : List SearchResult) (b : Option SiteCandidate),
      (∀ x ∈ l, candPage fetch x = none) → l.foldl (selectStep fetch nn) b = b := by
  intro l
  induction l with
  | nil => intro b _; rfl
  | cons r t ih =>
    intro b h
    rw [List.foldl_cons]
    have hr : candPage fetch r = none := h r (List.mem_cons_self r t)
    have hstep : selectStep fetch nn b r = b := by rw [selectStep_eq, hr]
    rw [hstep]
    exact ih b (fun x hx => h x (List.mem_cons_of_mem r hx))

theorem foldl_selectStep_none_iff (fetch : String → Option PageContent) (nn : String) :
    ∀ (l : List SearchResult) (b : Option SiteCandidate),
      l.foldl (selectStep fetch nn) b = none ↔
        b = none ∧ ∀ r ∈ l, candPage fetch r = none := by
  intro l
  induction l with
  | nil => intro b; simp
  | cons r t ih =>
    intro b
    rw [List.foldl_cons, ih]
    rw [selectStep_none_iff]
    constructor
    · rintro ⟨⟨hb, hr⟩, ht⟩
      exact ⟨hb, by
        intro x hx
        rcases List.mem_cons.mp hx with rfl | hx'
        · exact hr
        · exact ht x hx'⟩
    · rintro ⟨hb, h⟩
      exact ⟨⟨hb, h r (List.mem_cons_self r t)⟩,
        fun x hx => h x (List.mem_cons_of_mem r hx)⟩

/-- C1: `select` returns absent exactly when every candidate has an empty URL
or a failed fetch; moreover a candidate that fails in the middle of the list
is transparent — removing it leaves the selection unchanged, so one fetch
failure never prevents later candidates from being fetched, scored and
selected. -/
theorem select_absent_iff_no_fetch (fetch : String → Option PageContent)
    (company_name : String) :
    (∀ candidates : List SearchResult,
        OfficialSiteSelector.select fetch company_name candidates = none ↔
          ∀ r ∈ candidates, r.url = "" ∨ fetch r.url = none) ∧
    (∀ (cs₁ : List SearchResult) (bad : SearchResult) (cs₂ : List SearchResult),
        bad.url = "" ∨ fetch bad.url = none →
        OfficialSiteSelector.select fetch company_name (cs₁ ++ bad :: cs₂) =
          OfficialSiteSelector.select fetch company_name (cs₁ ++ cs₂)) := by
  constructor
  · intro candidates
    unfold OfficialSiteSelector.select
    rw [foldl_selectStep_none_iff]
    simp only [true_and, candPage_eq_none]
  · intro cs₁ bad cs₂ hbad
    unfold OfficialSiteSelector.select
    rw [List.foldl_append, List.foldl_append, List.foldl_cons]
    have hstep : selectStep fetch (_normalize_company_name company_name)
        (cs₁.foldl (selectStep fetch (_normalize_company_name company_name)) none) bad =
        cs₁.foldl (selectStep fetch (_normalize_company_name company_name)) none := by
      rw [selectStep_eq, (candPage_eq_none fetch bad).mpr hbad]
    rw [hstep]

/-- Witness for C1: with a fetcher that only serves `https://ok.jp/`, a list
whose only candidate has an empty URL selects nothing, and dropping a
candidate whose fetch fails does not change the selection. -/
theorem select_absent_iff_no_fetch_witness :
    (OfficialSiteSelector.select
        (fun u => if u = "https://ok.jp/" then some ⟨"https://ok.jp/", "", [], []⟩ else none)
        "example" [⟨"t", "", none, none⟩] = none) ∧
    (OfficialSiteSelector.select
        (fun u => if u = "https://ok.jp/" then some ⟨"https://ok.jp/", "", [], []⟩ else none)
        "example" ([⟨"a", "https://ok.jp/", none, none⟩] ++ ⟨"b", "https://no.jp/", none, none⟩ :: []) =
      OfficialSiteSelector.select
        (fun u => if u = "https://ok.jp/" then some ⟨"https://ok.jp/", "", [], []⟩ else none)
        "example" ([⟨"a", "https://ok.jp/", none, none⟩] ++ [])) := by
  constructor
  · exact (select_absent_iff_no_fetch _ "example").1 _ |>.mpr (by
      intro r hr
      rcases List.mem_singleton.mp hr with rfl
      exact Or.inl rfl)
  · exact (select_absent_iff_no_fetch _ "example").2 _ _ _ (Or.inr (by decide))

theorem foldl_selectStep_some_char (fetch : String → Option PageContent) (nn : String) :
    ∀ (cs : List SearchResult) (b : Option SiteCandidate) (c : SiteCandidate),
      cs.foldl (selectStep fetch nn) b = some c →
      (b = some c ∧ ∀ r ∈ cs, ∀ p, candPage fetch r = some p → _score_candidate nn p ≤ c.score) ∨
      (∃ cs₁ cs₂ p, cs = cs₁ ++ c.search_result :: cs₂ ∧
        candPage fetch c.search_result = some p ∧ c.page = some p ∧
        c.score = _score_candidate nn p ∧
        (∀ b', b = some b' → b'.score < c.score) ∧
        (∀ r ∈ cs₁, ∀ q, candPage fetch r = some q → _score_candidate nn q < c.score) ∧
        (∀ r ∈ cs₂, ∀ q, candPage fetch r = some q → _score_candidate nn q ≤ c.score)) := by
  intro cs
  induction cs with
  | nil =>
    intro b c h
    left
    exact ⟨h, by simp⟩
  | cons r t ih =>
    intro b c h
    rw [List.foldl_cons] at h
    rcases hcp : candPage fetch r with _ | p
    · -- the head candidate is skipped
      have hstep : selectStep fetch nn b r = b := by rw [selectStep_eq, hcp]
      rw [hstep] at h
      rcases ih b c h with ⟨hb, hrest⟩ | ⟨cs₁, cs₂, p, hdec, h1, h2, h3, hb, hlt, hle⟩
      · left
        refine ⟨hb, fun x hx q hq => ?_⟩
        rcases List.mem_cons.mp hx with rfl | hx'
        · rw [hcp] at hq; cases hq
        · exact hrest x hx' q hq
      · right
        refine ⟨r :: cs₁, cs₂, p, by rw [hdec]; rfl, h1, h2, h3, hb, fun x hx q hq => ?_, hle⟩
        rcases List.mem_cons.mp hx with rfl | hx'
        · rw [hcp] at hq; cases hq
        · exact hlt x hx' q hq
    · -- the head candidate is fetched and scored
      have hpq : ∀ q : PageContent, candPage fetch r = some q → q = p := by
        intro q hq; rw [hcp] at hq; exact (Option.some.inj hq).symm
      rcases b with _ | b₀
      · -- adopted from an empty accumulator
        have hstep : selectStep fetch nn none r = some ⟨r, some p, _score_candidate nn p⟩ := by
          rw [selectStep_eq, hcp]
        rw [hstep] at h
        rcases ih _ c h with ⟨hb, hrest⟩ | ⟨cs₁, cs₂, q, hdec, h1, h2, h3, hb, hlt, hle⟩
        · obtain rfl : (⟨r, some p, _score_candidate nn p⟩ : SiteCandidate) = c :=
            Option.some.inj hb
          right
          exact ⟨[], t, p, rfl, hcp, rfl, rfl, by simp, by simp, hrest⟩
        · right
          have hsp : _score_candidate nn p < c.score :=
            hb ⟨r, some p, _score_candidate nn p⟩ rfl
          refine ⟨r :: cs₁, cs₂, q, by rw [hdec]; rfl, h1, h2, h3, by simp,
            fun x hx q' hq' => ?_, hle⟩
          rcases List.mem_cons.mp hx with rfl | hx'
          · rw [hpq q' hq']; exact hsp
          · exact hlt x hx' q' hq'
      · by_cases hw : b₀.score < _score_candidate nn p
        · -- the head strictly beats the accumulator and is adopted
          have hstep : selectStep fetch nn (some b₀) r =
              some ⟨r, some p, _score_candidate nn p⟩ := by
            rw [selectStep_eq, hcp]
            simp [hw]
          rw [hstep] at h
          rcases ih _ c h with ⟨hb, hrest⟩ | ⟨cs₁, cs₂, q, hdec, h1, h2, h3, hb, hlt, hle⟩
          · obtain rfl : (⟨r, some p, _score_candidate nn p⟩ : SiteCandidate) = c :=
              Option.some.inj hb
            right
            refine ⟨[], t, p, rfl, hcp, rfl, rfl, ?_, by simp, hrest⟩
            rintro b' hb'
            cases Option.some.inj hb'
            exact hw
          · right
            have hsp : _score_candidate nn p < c.score :=
              hb ⟨r, some p, _score_candidate nn p⟩ rfl
            refine ⟨r :: cs₁, cs₂, q, by rw [hdec]; rfl, h1, h2, h3, ?_, fun x hx q' hq' => ?_, hle⟩
            · rintro b' hb'
              cases Option.some.inj hb'
              exact lt_trans hw hsp
            · rcases List.mem_cons.mp hx with rfl | hx'
              · rw [hpq q' hq']; exact hsp
              · exact hlt x hx' q' hq'
        · -- the head does not beat the accumulator
          have hstep : selectStep fetch nn (some b₀) r = some b₀ := by
            rw [selectStep_eq, hcp]
            simp [hw]
          rw [hstep] at h
          rcases ih _ c h with ⟨hb, hrest⟩ | ⟨cs₁, cs₂, q, hdec, h1, h2, h3, hb, hlt, hle⟩
          · obtain rfl : b₀ = c := Option.some.inj hb
            left
            refine ⟨rfl, fun x hx q' hq' => ?_⟩
            rcases List.mem_cons.mp hx with rfl | hx'
            · rw [hpq q' hq']; exact le_of_not_lt hw
            · exact hrest x hx' q' hq'
          · right
            have hb0 : b₀.score < c.score := hb b₀ rfl
            refine ⟨r :: cs₁, cs₂, q, by rw [hdec]; rfl, h1, h2, h3,
              fun b' hb' => by cases Option.some.inj hb'; exact hb0,
              fun x hx q' hq' => ?_, hle⟩
            rcases List.mem_cons.mp hx with rfl | hx'
            · rw [hpq q' hq']; exact lt_of_le_of_lt (le_of_not_lt hw) hb0
            · exact hlt x hx' q' hq'

/-- C5: a selected candidate is the first-encountered candidate attaining the
maximal score among fetched candidates — every earlier fetched candidate
scores strictly lower (so a later candidate replaces the current best only
with a strictly higher score) and every later one scores at most equal — and
when exactly one candidate fetches, it is selected whatever its score. -/
theorem select_first_encountered_max (fetch : String → Option PageContent)
    (company_name : String) :
    (∀ (candidates : List SearchResult) (c : SiteCandidate),
      OfficialSiteSelector.select fetch company_name candidates = some c →
      ∃ cs₁ cs₂ p, candidates = cs₁ ++ c.search_result :: cs₂ ∧
        candPage fetch c.search_result = some p ∧ c.page = some p ∧
        c.score = _score_candidate (_normalize_company_name company_name) p ∧
        (∀ r ∈ cs₁, ∀ q, candPage fetch r = some q →
          _score_candidate (_normalize_company_name company_name) q < c.score) ∧
        (∀ r ∈ cs₂, ∀ q, candPage fetch r = some q →
          _score_candidate (_normalize_company_name company_name) q ≤ c.score)) ∧
    (∀ (cs₁ : List SearchResult) (r : SearchResult) (cs₂ : List SearchResult) (p : PageContent),
        (∀ x ∈ cs₁, candPage fetch x = none) → (∀ x ∈ cs₂, candPage fetch x = none) →
        candPage fetch r = some p →
        OfficialSiteSelector.select fetch company_name (cs₁ ++ r :: cs₂) =
          some ⟨r, some p, _score_candidate (_normalize_company_name company_name) p⟩) := by
  constructor
  · intro candidates c h
    rcases foldl_selectStep_some_char fetch _ candidates none c h with ⟨hb, _⟩ | ⟨cs₁, cs₂, p, hdec, h1, h2, h3, _, hlt, hle⟩
    · cases hb
    · exact ⟨cs₁, cs₂, p, hdec, h1, h2, h3, hlt, hle⟩
  · intro cs₁ r cs₂ p h1 h2 hr
    unfold OfficialSiteSelector.select
    rw [List.foldl_append, foldl_selectStep_skip fetch _ cs₁ none h1, List.foldl_cons]
    have hstep : selectStep fetch (_normalize_company_name company_name) none r =
        some ⟨r, some p, _score_candidate (_normalize_company_name company_name) p⟩ := by
      rw [selectStep_eq, hr]
    rw [hstep]
    exact foldl_selectStep_skip fetch _ cs₂ _ h2

/-- Witness for C5: a single fetched candidate — a page on a `.go.jp` host
with empty text, whose score is negative — is selected regardless. -/
theorem select_first_encountered_max_witness :
    OfficialSiteSelector.select
      (fun u => if u = "https://foo.go.jp/" then some ⟨"https://foo.go.jp/", "", [], []⟩ else none)
      "example" [⟨"t", "https://foo.go.jp/", none, none⟩] =
    some ⟨⟨"t", "https://foo.go.jp/", none, none⟩, some ⟨"https://foo.go.jp/", "", [], []⟩,
      _score_candidate (_normalize_company_name "example") ⟨"https://foo.go.jp/", "", [], []⟩⟩ := by
  have h := (select_first_encountered_max
    (fun u => if u = "https://foo.go.jp/" then some ⟨"https://foo.go.jp/", "", [], []⟩ else none)
    "example").2 [] ⟨"t", "https://foo.go.jp/", none, none⟩ [] ⟨"https://foo.go.jp/", "", [], []⟩
    (by simp) (by simp) (by decide)
  simpa using h

/-! ## Crawler bookkeeping lemmas -/

@[simp] theorem addPop_results (e : String × Nat) (o : CrawlOut) :
    (addPop e o).results = o.results := rfl

@[simp] theorem addPop_fetched (e : String × Nat) (o : CrawlOut) :
    (addPop e o).fetched = o.fetched := rfl

@[simp] theorem addPop_popped (e : String × Nat) (o : CrawlOut) :
    (addPop e o).popped = e :: o.popped := rfl

@[simp] theorem addPopFetch_results (e : String × Nat) (o : CrawlOut) :
    (addPopFetch e o).results = o.results := rfl

@[simp] theorem addPopFetch_fetched (e : String × Nat) (o : CrawlOut) :
    (addPopFetch e o).fetched = e.1 :: o.fetched := rfl

@[simp] theorem addPopFetch_popped (e : String × Nat) (o : CrawlOut) :
    (addPopFetch e o).popped = e :: o.popped := rfl

theorem crawlLoop_results_le (s : Settings) (fetch : String → Option PageContent)
    (bh : String) :
    ∀ (fuel : Nat) (q : List (String × Nat)) (visited : List String)
      (results : List PageContent), results.length ≤ s.crawler_max_pages →
      (crawlLoop s fetch bh fuel q visited results).results.length ≤ s.crawler_max_pages := by
  intro fuel
  induction fuel with
  | zero => intro q v r h; simpa [crawlLoop] using h
  | succ fuel ih =>
    intro q v r h
    match q with
    | [] => simpa [crawlLoop] using h
    | (url, depth) :: rest =>
      by_cases hmax : s.crawler_max_pages ≤ r.length
      · simpa [crawlLoop, hmax] using h
      · have hlen : ∀ page : PageContent, (r ++ [page]).length ≤ s.crawler_max_pages := by
          intro page
          simp only [List.length_append, List.length_singleton]
          omega
        by_cases hv : SiteCrawler._normalize_url url ∈ v
        · simpa [crawlLoop, hmax, hv] using ih rest v r h
        · rcases hf : fetch url with _ | page
          · simpa [crawlLoop, hmax, hv, hf] using
              ih rest (SiteCrawler._normalize_url url :: v) r h
          · by_cases hd : s.crawler_max_depth ≤ depth
            · simpa [crawlLoop, hmax, hv, hf, hd] using
                ih rest (SiteCrawler._normalize_url url :: v) (r ++ [page]) (hlen page)
            · simpa [crawlLoop, hmax, hv, hf, hd] using
                ih (enqueueLinks bh page.url depth page.anchors rest)
                  (SiteCrawler._normalize_url url :: v) (r ++ [page]) (hlen page)

theorem crawlLoop_fetched_fresh (s : Settings) (fetch : String → Option PageContent)
    (bh : String) :
    ∀ (fuel : Nat) (q : List (String × Nat)) (visited : List String)
      (results : List PageContent),
      ((crawlLoop s fetch bh fuel q visited results).fetched.map
        SiteCrawler._normalize_url).Nodup ∧
      ∀ u ∈ (crawlLoop s fetch bh fuel q visited results).fetched,
        SiteCrawler._normalize_url u ∉ visited := by
  intro fuel
  induction fuel with
  | zero => intro q v r; simp [crawlLoop]
  | succ fuel ih =>
    intro q v r
    match q with
    | [] => simp [crawlLoop]
    | (url, depth) :: rest =>
      by_cases hmax : s.crawler_max_pages ≤ r.length
      · simp [crawlLoop, hmax]
      · by_cases hv : SiteCrawler._normalize_url url ∈ v
        · simpa [crawlLoop, hmax, hv] using ih rest v r
        · have cons_case :
            ∀ (q' : List (String × Nat)) (r' : List PageContent),
              ((url :: (crawlLoop s fetch bh fuel q'
                  (SiteCrawler._normalize_url url :: v) r').fetched).map
                SiteCrawler._normalize_url).Nodup ∧
              ∀ u ∈ url :: (crawlLoop s fetch bh fuel q'
                  (SiteCrawler._normalize_url url :: v) r').fetched,
                SiteCrawler._normalize_url u ∉ v := by
            intro q' r'
            obtain ⟨hnd, hfresh⟩ := ih q' (SiteCrawler._normalize_url url :: v) r'
            constructor
            · rw [List.map_cons, List.nodup_cons]
              refine ⟨?_, hnd⟩
              intro hmem
              rcases List.mem_map.mp hmem with ⟨u, hu, hequ⟩
              exact hfresh u hu (by rw [hequ]; exact List.mem_cons_self _ _)
            · intro u hu
              rcases List.mem_cons.mp hu with rfl | hu'
              · exact hv
              · intro hmem
                exact hfresh u hu' (List.mem_cons_of_mem _ hmem)
          rcases hf : fetch url with _ | page
          · simpa [crawlLoop, hmax, hv, hf] using cons_case rest r
          · by_cases hd : s.crawler_max_depth ≤ depth
            · simpa [crawlLoop, hmax, hv, hf, hd] using cons_case rest (r ++ [page])
            · simpa [crawlLoop, hmax, hv, hf, hd] using
                cons_case (enqueueLinks bh page.url depth page.anchors rest) (r ++ [page])

theorem crawlLoop_results_grow (s : Settings) (fetch : String → Option PageContent)
    (bh : String) :
    ∀ (fuel : Nat) (q : List (String × Nat)) (visited : List String)
      (results : List PageContent),
      results <+: (crawlLoop s fetch bh fuel q visited results).results := by
  intro fuel
  induction fuel with
  | zero => intro q v r; simp [crawlLoop]
  | succ fuel ih =>
    intro q v r
    match q with
    | [] => simp [crawlLoop]
    | (url, depth) :: rest =>
      by_cases hmax : s.crawler_max_pages ≤ r.length
      · simp [crawlLoop, hmax]
      · by_cases hv : SiteCrawler._normalize_url url ∈ v
        · simpa [crawlLoop, hmax, hv] using ih rest v r
        · rcases hf : fetch url with _ | page
          · simpa [crawlLoop, hmax, hv, hf] using
              ih rest (SiteCrawler._normalize_url url :: v) r
          · have grow : ∀ q', r <+: (crawlLoop s fetch bh fuel q'
                (SiteCrawler._normalize_url url :: v) (r ++ [page])).results := by
              intro q'
              exact (List.prefix_append r [page]).trans (ih q' _ _)
            by_cases hd : s.crawler_max_depth ≤ depth
            · simpa [crawlLoop, hmax, hv, hf, hd] using grow rest
            · simpa [crawlLoop, hmax, hv, hf, hd] using
                grow (enqueueLinks bh page.url depth page.anchors rest)

/-- C2: a crawl run never collects more pages than `crawler_max_pages`, and no
two fetch attempts of one run target the same normalized (fragment-stripped)
URL. -/
theorem crawl_page_limit_and_no_refetch (s : Settings)
    (fetch : String → Option PageContent) (fuel : Nat) (base_url : String) :
    (SiteCrawler.crawl s fetch fuel base_url).length ≤ s.crawler_max_pages ∧
    ((crawlRun s fetch fuel base_url).fetched.map SiteCrawler._normalize_url).Nodup := by
  constructor
  · exact crawlLoop_results_le s fetch (urlNetloc base_url) fuel _ _ _ (by simp)
  · exact (crawlLoop_fetched_fresh s fetch (urlNetloc base_url) fuel _ _ _).1

/-- C10: when the start URL itself fetches and the page budget is positive,
the crawl output is non-empty and starts with the page fetched for the start
URL — the seed is dequeued and fetched before any discovered link. -/
theorem crawl_starts_with_seed (s : Settings) (fetch : String → Option PageContent)
    (fuel : Nat) (base_url : String) (p : PageContent)
    (hp : fetch base_url = some p) (hpos : 0 < s.crawler_max_pages) :
    ∃ rest, SiteCrawler.crawl s fetch (fuel + 1) base_url = p :: rest := by
  unfold SiteCrawler.crawl crawlRun
  have hmax : ¬s.crawler_max_pages = 0 := by omega
  have tail_result : ∀ q', ∃ rest,
      (crawlLoop s fetch (urlNetloc base_url) fuel q'
        [SiteCrawler._normalize_url base_url] [p]).results = p :: rest := by
    intro q'
    obtain ⟨rest, hrest⟩ := crawlLoop_results_grow s fetch (urlNetloc base_url) fuel q'
      [SiteCrawler._normalize_url base_url] [p]
    exact ⟨rest, hrest.symm⟩
  by_cases hd : s.crawler_max_depth ≤ 0
  · simpa [crawlLoop, hmax, hp, hd] using tail_result []
  · simpa [crawlLoop, hmax, hp, hd] using
      tail_result (enqueueLinks (urlNetloc base_url) p.url 0 p.anchors [])

/-- Witness for C10 at a fetcher serving one concrete page. -/
theorem crawl_starts_with_seed_witness :
    ∃ rest, SiteCrawler.crawl {}
      (fun u => if u = "https://site.jp/"
        then some ⟨"https://site.jp/", "", [⟨"blah", "/b"⟩], []⟩ else none)
      3 "https://site.jp/" = ⟨"https://site.jp/", "", [⟨"blah", "/b"⟩], []⟩ :: rest :=
  crawl_starts_with_seed {} _ 2 "https://site.jp/" _ (by decide) (by decide)

/-! ## C3: contact-link prioritization -/

theorem enqueueLinks_eq (bh pu : String) (d : Nat) :
    ∀ (as : List Anchor) (q : List (String × Nat)),
      enqueueLinks bh pu d as q =
        (frontEntries bh pu d as).reverse ++ q ++ backEntries bh pu d as := by
  intro as
  induction as with
  | nil => intro q; simp [enqueueLinks, frontEntries, backEntries]
  | cons a rest ih =>
    intro q
    rcases hk : keepLink bh pu a with _ | u
    · simp [enqueueLinks, frontEntries, backEntries, hk, List.filterMap_cons, ih]
    · by_cases hc : isContactHref a.href
      · simp only [enqueueLinks, hk, hc, if_true, ih ((u, d + 1) :: q),
          frontEntries, backEntries, List.filterMap_cons]
        simp [hc, frontEntries, backEntries]
      · simp only [enqueueLinks, hk, hc, if_false, ih (q ++ [(u, d + 1)]),
          frontEntries, backEntries, List.filterMap_cons]
        simp [hc, frontEntries, backEntries]

theorem mem_frontEntries (bh pu : String) (d : Nat) (as : List Anchor)
    (e : String × Nat) (h : e ∈ frontEntries bh pu d as) :
    ∃ a ∈ as, isContactHref a.href = true ∧ keepLink bh pu a = some e.1 ∧ e.2 = d + 1 := by
  rcases List.mem_filterMap.mp h with ⟨a, ha, heq⟩
  rcases hk : keepLink bh pu a with _ | u
  · rw [hk] at heq; cases heq
  · rw [hk] at heq
    by_cases hc : isContactHref a.href
    · simp only [hc, if_true] at heq
      cases Option.some.inj heq
      exact ⟨a, ha, hc, by rw [hk], rfl⟩
    · simp only [hc, if_false] at heq
      cases heq

theorem mem_backEntries (bh pu : String) (d : Nat) (as : List Anchor)
    (a : Anchor) (u : String) (ha : a ∈ as) (hc : isContactHref a.href = false)
    (hk : keepLink bh pu a = some u) : (u, d + 1) ∈ backEntries bh pu d as := by
  refine List.mem_filterMap.mpr ⟨a, ha, ?_⟩
  rw [hk, hc]
  simp

theorem mem_first_split {α : Type} [DecidableEq α] (x : α) :
    ∀ l : List α, x ∈ l → ∃ l₁ l₂, l = l₁ ++ x :: l₂ ∧ x ∉ l₁ := by
  intro l
  induction l with
  | nil => intro h; cases h
  | cons y t ih =>
    intro h
    by_cases hxy : y = x
    · exact ⟨[], t, by simp [hxy], by simp⟩
    · have hxt : x ∈ t := by
        rcases List.mem_cons.mp h with hm | hm
        · exact absurd hm.symm hxy
        · exact hm
      rcases ih hxt with ⟨l₁, l₂, hdec, hx⟩
      refine ⟨y :: l₁, l₂, by rw [hdec]; rfl, ?_⟩
      intro hmem
      rcases List.mem_cons.mp hmem with hm | hm
      · exact hxy hm.symm
      · exact hx hm

theorem firstIdx_cons_self {α : Type} [DecidableEq α] (x : α) (t : List α) :
    firstIdx x (x :: t) = 0 := by simp [firstIdx]

theorem firstIdx_cons_ne {α : Type} [DecidableEq α] (x y : α) (t : List α)
    (h : y ≠ x) : firstIdx x (y :: t) = firstIdx x t + 1 := by simp [firstIdx, h]

theorem crawlLoop_popped_order (s : Settings) (fetch : String → Option PageContent)
    (bh : String) (bE : String × Nat)
    (hnf : ∀ u p a, fetch u = some p → a ∈ p.anchors → isContactHref a.href = true →
      keepLink bh p.url a ≠ some bE.1) :
    ∀ (fuel : Nat) (q₁ q₂ : List (String × Nat)) (visited : List String)
      (results : List PageContent) (e : String × Nat),
      bE ∉ q₁ → e ∈ q₁ →
      bE ∈ (crawlLoop s fetch bh fuel (q₁ ++ bE :: q₂) visited results).popped →
      e ∈ (crawlLoop s fetch bh fuel (q₁ ++ bE :: q₂) visited results).popped ∧
      firstIdx e (crawlLoop s fetch bh fuel (q₁ ++ bE :: q₂) visited results).popped <
        firstIdx bE (crawlLoop s fetch bh fuel (q₁ ++ bE :: q₂) visited results).popped := by
  intro fuel
  induction fuel with
  | zero =>
    intro q₁ q₂ v r e _ _ hb
    simp [crawlLoop] at hb
  | succ fuel ih =>
    intro q₁ q₂ v r e hbq he hb
    match q₁, he with
    | x :: q₁', he =>
      have hbx : bE ≠ x := fun h => hbq (h ▸ List.mem_cons_self x q₁')
      have hbq' : bE ∉ q₁' := fun h => hbq (List.mem_cons_of_mem x h)
      have main_step : ∀ (P₁ P₂ : List (String × Nat)) (v' : List String)
          (r' : List PageContent), bE ∉ P₁ → (e = x ∨ e ∈ P₁) →
          bE ∈ x :: (crawlLoop s fetch bh fuel (P₁ ++ bE :: P₂) v' r').popped →
          e ∈ x :: (crawlLoop s fetch bh fuel (P₁ ++ bE :: P₂) v' r').popped ∧
          firstIdx e (x :: (crawlLoop s fetch bh fuel (P₁ ++ bE :: P₂) v' r').popped) <
            firstIdx bE (x :: (crawlLoop s fetch bh fuel (P₁ ++ bE :: P₂) v' r').popped) := by
        intro P₁ P₂ v' r' hbP hex hbmem
        have hbτ : bE ∈ (crawlLoop s fetch bh fuel (P₁ ++ bE :: P₂) v' r').popped := by
          rcases List.mem_cons.mp hbmem with h | h
          · exact absurd h hbx
          · exact h
        rw [firstIdx_cons_ne bE x _ (fun h => hbx h.symm)]
        rcases hex with rfl | heP
        · refine ⟨List.mem_cons_self _ _, ?_⟩
          rw [firstIdx_cons_self]
          exact Nat.succ_pos _
        · obtain ⟨heτ, hlt⟩ := ih P₁ P₂ v' r' e hbP heP hbτ
          refine ⟨List.mem_cons_of_mem _ heτ, ?_⟩
          by_cases hxe : x = e
          · rw [hxe, firstIdx_cons_self]
            exact Nat.succ_pos _
          · rw [firstIdx_cons_ne e x _ hxe]
            omega
      match x with
      | (url, depth) =>
        have hex : e = (url, depth) ∨ e ∈ q₁' := by
          rcases List.mem_cons.mp he with h | h
          · exact Or.inl h
          · exact Or.inr h
        by_cases hmax : s.crawler_max_pages ≤ r.length
        · rw [List.cons_append] at hb ⊢
          simp [crawlLoop, hmax] at hb
        · by_cases hv : SiteCrawler._normalize_url url ∈ v
          · rw [List.cons_append] at hb ⊢
            simpa [crawlLoop, hmax, hv] using
              main_step q₁' q₂ v r hbq' hex (by simpa [crawlLoop, hmax, hv] using hb)
          · rcases hf : fetch url with _ | page
            · rw [List.cons_append] at hb ⊢
              simpa [crawlLoop, hmax, hv, hf] using
                main_step q₁' q₂ (SiteCrawler._normalize_url url :: v) r hbq' hex
                  (by simpa [crawlLoop, hmax, hv, hf] using hb)
            · by_cases hd : s.crawler_max_depth ≤ depth
              · rw [List.cons_append] at hb ⊢
                simpa [crawlLoop, hmax, hv, hf, hd] using
                  main_step q₁' q₂ (SiteCrawler._normalize_url url :: v) (r ++ [page])
                    hbq' hex (by simpa [crawlLoop, hmax, hv, hf, hd] using hb)
              · have hQ : enqueueLinks bh page.url depth page.anchors (q₁' ++ bE :: q₂) =
                    ((frontEntries bh page.url depth page.anchors).reverse ++ q₁') ++
                      bE :: (q₂ ++ backEntries bh page.url depth page.anchors) := by
                  rw [enqueueLinks_eq]
                  simp
                have hbF : bE ∉ (frontEntries bh page.url depth page.anchors).reverse ++ q₁' := by
                  intro hmem
                  rcases List.mem_append.mp hmem with hmem | hmem
                  · rcases mem_frontEntries bh page.url depth page.anchors bE
                        (List.mem_reverse.mp hmem) with ⟨a, ha, hc, hk, _⟩
                    exact hnf url page a hf ha hc hk
                  · exact hbq' hmem
                have hex' : e = (url, depth) ∨
                    e ∈ (frontEntries bh page.url depth page.anchors).reverse ++ q₁' := by
                  rcases hex with h | h
                  · exact Or.inl h
                  · exact Or.inr (List.mem_append.mpr (Or.inr h))
                rw [List.cons_append] at hb ⊢
                simpa [crawlLoop, hmax, hv, hf, hd, hQ] using
                  main_step _ _ (SiteCrawler._normalize_url url :: v) (r ++ [page])
                    hbF hex' (by simpa [crawlLoop, hmax, hv, hf, hd, hQ] using hb)

/-- C3 (amended): for two links discovered from the same source page while the
page budget and depth budget still allow processing, a link whose raw href
contains a contact keyword is dequeued strictly before a link whose href
contains none — provided the latter's queue entry is not already pending and
its URL is never pushed to the front by some other contact-href discovery. -/
theorem crawl_contact_href_priority
    (s : Settings) (fetch : String → Option PageContent) (base_host : String)
    (fuel : Nat) (url : String) (depth : Nat) (rest : List (String × Nat))
    (visited : List String) (results : List PageContent)
    (page : PageContent) (a b : Anchor) (ua ub : String)
    (hfetch : fetch url = some page)
    (hnv : SiteCrawler._normalize_url url ∉ visited)
    (hlen : results.length < s.crawler_max_pages)
    (hdepth : depth < s.crawler_max_depth)
    (ha : a ∈ page.anchors) (hb : b ∈ page.anchors)
    (haC : isContactHref a.href = true) (hbC : isContactHref b.href = false)
    (hka : keepLink base_host page.url a = some ua)
    (hkb : keepLink base_host page.url b = some ub)
    (hrest : (ub, depth + 1) ∉ rest)
    (hnf : ∀ u p l, fetch u = some p → l ∈ p.anchors → isContactHref l.href = true →
      keepLink base_host p.url l ≠ some ub) :
    (ub, depth + 1) ∈ (crawlLoop s fetch base_host (fuel + 1)
        ((url, depth) :: rest) visited results).popped →
    (ua, depth + 1) ∈ (crawlLoop s fetch base_host (fuel + 1)
        ((url, depth) :: rest) visited results).popped ∧
    firstIdx (ua, depth + 1) (crawlLoop s fetch base_host (fuel + 1)
        ((url, depth) :: rest) visited results).popped <
      firstIdx (ub, depth + 1) (crawlLoop s fetch base_host (fuel + 1)
        ((url, depth) :: rest) visited results).popped := by
  intro hmem
  have hmax : ¬s.crawler_max_pages ≤ results.length := Nat.not_le.mpr hlen
  have hd : ¬s.crawler_max_depth ≤ depth := Nat.not_le.mpr hdepth
  have hstep : crawlLoop s fetch base_host (fuel + 1) ((url, depth) :: rest) visited results =
      addPopFetch (url, depth)
        (crawlLoop s fetch base_host fuel
          (enqueueLinks base_host page.url depth page.anchors rest)
          (SiteCrawler._normalize_url url :: visited) (results ++ [page])) := by
    simp [crawlLoop, hmax, hnv, hfetch, hd]
  have haF : (ua, depth + 1) ∈ frontEntries base_host page.url depth page.anchors := by
    refine List.mem_filterMap.mpr ⟨a, ha, ?_⟩
    rw [hka, haC]
    simp
  have hbB : (ub, depth + 1) ∈ backEntries base_host page.url depth page.anchors :=
    mem_backEntries base_host page.url depth page.anchors b ub hb hbC hkb
  obtain ⟨B₁, B₂, hBdec, hbB₁⟩ := mem_first_split (ub, depth + 1) _ hbB
  have hQ : enqueueLinks base_host page.url depth page.anchors rest =
      ((frontEntries base_host page.url depth page.anchors).reverse ++ rest ++ B₁) ++
        (ub, depth + 1) :: B₂ := by
    rw [enqueueLinks_eq, hBdec]
    simp
  have hbP₁ : (ub, depth + 1) ∉
      (frontEntries base_host page.url depth page.anchors).reverse ++ rest ++ B₁ := by
    intro hmem'
    rcases List.mem_append.mp hmem' with hmem'' | hmem''
    · rcases List.mem_append.mp hmem'' with hmem''' | hmem'''
      · rcases mem_frontEntries base_host page.url depth page.anchors _
            (List.mem_reverse.mp hmem''') with ⟨l, hl, hlc, hlk, _⟩
        exact hnf url page l hfetch hl hlc hlk
      · exact hrest hmem'''
    · exact hbB₁ hmem''
  have haP₁ : (ua, depth + 1) ∈
      (frontEntries base_host page.url depth page.anchors).reverse ++ rest ++ B₁ :=
    List.mem_append.mpr (Or.inl (List.mem_append.mpr (Or.inl (List.mem_reverse.mpr haF))))
  have hbne : (ub, depth + 1) ≠ (url, depth) := by
    intro h
    have := congrArg Prod.snd h
    simp at this
  have hane : (ua, depth + 1) ≠ (url, depth) := by
    intro h
    have := congrArg Prod.snd h
    simp at this
  rw [hstep, addPopFetch_popped, hQ] at hmem ⊢
  have hbτ : (ub, depth + 1) ∈ (crawlLoop s fetch base_host fuel
      (((frontEntries base_host page.url depth page.anchors).reverse ++ rest ++ B₁) ++
        (ub, depth + 1) :: B₂)
      (SiteCrawler._normalize_url url :: visited) (results ++ [page])).popped := by
    rcases List.mem_cons.mp hmem with h | h
    · exact absurd h hbne
    · exact h
  obtain ⟨haτ, hlt⟩ := crawlLoop_popped_order s fetch base_host (ub, depth + 1) hnf fuel
    ((frontEntries base_host page.url depth page.anchors).reverse ++ rest ++ B₁) B₂
    (SiteCrawler._normalize_url url :: visited) (results ++ [page]) (ua, depth + 1)
    hbP₁ haP₁ hbτ
  refine ⟨List.mem_cons_of_mem _ haτ, ?_⟩
  rw [firstIdx_cons_ne (ua, depth + 1) (url, depth) _ (fun h => hane h.symm),
    firstIdx_cons_ne (ub, depth + 1) (url, depth) _ (fun h => hbne h.symm)]
  omega

/-- C3 is false as stated: here the second discovered link's anchor text
(`"Contact us"`) contains a contact keyword and the first link's text does
not, both are discovered from the same source page far below the page budget,
yet the keyword-text link is dequeued strictly after the other — the crawler
prioritizes on the raw href, never on the anchor text. -/
theorem crawl_contact_text_priority_counterexample :
    (CONTACT_KEYWORDS.any (fun k => strHasSub (strToLower "Contact us") k) = true) ∧
    (CONTACT_KEYWORDS.any (fun k => strHasSub (strToLower "blah") k) = false) ∧
    ((crawlRun ⟨6, 2⟩
        (fun u => if u = "https://site.jp/"
          then some ⟨"https://site.jp/", "",
            [⟨"blah", "/b"⟩, ⟨"Contact us", "/a"⟩], []⟩ else none)
        5 "https://site.jp/").popped =
      [("https://site.jp/", 0), ("https://site.jp/b", 1), ("https://site.jp/a", 1)]) ∧
    firstIdx ("https://site.jp/b", 1)
        ((crawlRun ⟨6, 2⟩
          (fun u => if u = "https://site.jp/"
            then some ⟨"https://site.jp/", "",
              [⟨"blah", "/b"⟩, ⟨"Contact us", "/a"⟩], []⟩ else none)
          5 "https://site.jp/").popped) <
      firstIdx ("https://site.jp/a", 1)
        ((crawlRun ⟨6, 2⟩
          (fun u => if u = "https://site.jp/"
            then some ⟨"https://site.jp/", "",
              [⟨"blah", "/b"⟩, ⟨"Contact us", "/a"⟩], []⟩ else none)
          5 "https://site.jp/").popped) := by
  refine ⟨by decide, by decide, by decide, by decide⟩

/-- Witness for the amended C3 at a concrete one-page site: the front-queued
`/contact-us` link is dequeued strictly before the `/b` link discovered from
the same page. -/
theorem crawl_contact_href_priority_witness :
    ("https://site.jp/contact-us", 0 + 1) ∈ (crawlLoop ⟨6, 2⟩
        (fun u => if u = "https://site.jp/"
          then some ⟨"https://site.jp/", "", [⟨"x", "/contact-us"⟩, ⟨"y", "/b"⟩], []⟩
          else none)
        "site.jp" (4 + 1) [("https://site.jp/", 0)] [] []).popped ∧
    firstIdx ("https://site.jp/contact-us", 0 + 1)
        ((crawlLoop ⟨6, 2⟩
          (fun u => if u = "https://site.jp/"
            then some ⟨"https://site.jp/", "", [⟨"x", "/contact-us"⟩, ⟨"y", "/b"⟩], []⟩
            else none)
          "site.jp" (4 + 1) [("https://site.jp/", 0)] [] []).popped) <
      firstIdx ("https://site.jp/b", 0 + 1)
        ((crawlLoop ⟨6, 2⟩
          (fun u => if u = "https://site.jp/"
            then some ⟨"https://site.jp/", "", [⟨"x", "/contact-us"⟩, ⟨"y", "/b"⟩], []⟩
            else none)
          "site.jp" (4 + 1) [("https://site.jp/", 0)] [] []).popped) :=
  crawl_contact_href_priority ⟨6, 2⟩
    (fun u => if u = "https://site.jp/"
      then some ⟨"https://site.jp/", "", [⟨"x", "/contact-us"⟩, ⟨"y", "/b"⟩], []⟩
      else none)
    "site.jp" 4 "https://site.jp/" 0 [] [] []
    ⟨"https://site.jp/", "", [⟨"x", "/contact-us"⟩, ⟨"y", "/b"⟩], []⟩
    ⟨"x", "/contact-us"⟩ ⟨"y", "/b"⟩ "https://site.jp/contact-us" "https://site.jp/b"
    (by decide) (by simp) (by decide) (by decide) (by decide) (by decide)
    (by decide) (by decide) (by decide) (by decide) (by simp)
    (by
      intro u p l hf hl hc hk
      by_cases hu : u = "https://site.jp/"
      · subst hu
        have h2 : (if ("https://site.jp/" : String) = "https://site.jp/" then
            some (⟨"https://site.jp/", "", [⟨"x", "/contact-us"⟩, ⟨"y", "/b"⟩], []⟩ :
              PageContent) else none) = some p := hf
        rw [if_pos rfl] at h2
        have hp : p = ⟨"https://site.jp/", "", [⟨"x", "/contact-us"⟩, ⟨"y", "/b"⟩], []⟩ :=
          (Option.some.inj h2).symm
        subst hp
        have hl' : l = (⟨"x", "/contact-us"⟩ : Anchor) ∨ l = (⟨"y", "/b"⟩ : Anchor) := by
          simpa using hl
        rcases hl' with rfl | rfl
        · exact absurd hk (by decide)
        · exact absurd hc (by decide)
      · have h2 : (if u = "https://site.jp/" then
            some (⟨"https://site.jp/", "", [⟨"x", "/contact-us"⟩, ⟨"y", "/b"⟩], []⟩ :
              PageContent) else none) = some p := hf
        rw [if_neg hu] at h2
        cases h2)
    (by decide)

/-! ## Extractor step lemmas -/

theorem stepContact_preserves (page : PageContent) (st : ExtractionResult × List String) :
    (stepContact page st).1.email_main = st.1.email_main ∧
    (stepContact page st).1.email_role_based = st.1.email_role_based ∧
    (stepContact page st).1.email_guessed = st.1.email_guessed ∧
    (stepContact page st).1.phone_main = st.1.phone_main ∧
    (stepContact page st).1.fax_main = st.1.fax_main ∧
    (stepContact page st).1.sns = st.1.sns := by
  by_cases h : st.1.contact_form_url = none
  · rcases hf : _find_contact_link page.anchors page.url with _ | link <;>
      simp [stepContact, h, hf]
  · simp [stepContact, h]

theorem stepEmails_preserves (page : PageContent) (st : ExtractionResult × List String) :
    (stepEmails page st).1.contact_form_url = st.1.contact_form_url ∧
    (stepEmails page st).1.email_guessed = st.1.email_guessed ∧
    (stepEmails page st).1.phone_main = st.1.phone_main ∧
    (stepEmails page st).1.fax_main = st.1.fax_main ∧
    (stepEmails page st).1.sns = st.1.sns := by
  unfold stepEmails
  by_cases hr : (_extract_emails_from_page page).filter (fun e => _is_role_email e) ≠ [] <;>
    by_cases hm : st.1.email_main = none <;>
    by_cases he : (_extract_emails_from_page page) ≠ [] <;>
    simp [hr, hm, he]

theorem stepPhoneFax_preserves (page : PageContent) (st : ExtractionResult × List String) :
    (stepPhoneFax page st).1.contact_form_url = st.1.contact_form_url ∧
    (stepPhoneFax page st).1.email_main = st.1.email_main ∧
    (stepPhoneFax page st).1.email_role_based = st.1.email_role_based ∧
    (stepPhoneFax page st).1.email_guessed = st.1.email_guessed ∧
    (stepPhoneFax page st).1.sns = st.1.sns := by
  unfold stepPhoneFax
  rcases hp : (_extract_phone_fax page).1 with _ | phone <;>
    rcases hq : (_extract_phone_fax page).2 with _ | fax <;>
    by_cases h1 : st.1.phone_main = none <;>
    by_cases h2 : st.1.fax_main = none <;>
    simp [hp, hq, h1, h2]

theorem stepSns_preserves (page : PageContent) (st : ExtractionResult × List String) :
    (stepSns page st).1.contact_form_url = st.1.contact_form_url ∧
    (stepSns page st).1.email_main = st.1.email_main ∧
    (stepSns page st).1.email_role_based = st.1.email_role_based ∧
    (stepSns page st).1.email_guessed = st.1.email_guessed ∧
    (stepSns page st).1.phone_main = st.1.phone_main ∧
    (stepSns page st).1.fax_main = st.1.fax_main := by
  unfold stepSns
  generalize _extract_sns_links page.anchors page.url = kvs
  induction kvs generalizing st with
  | nil => simp
  | cons kv rest ih =>
    rw [List.foldl_cons]
    by_cases h : lookupKey kv.1 st.1.sns = none
    · simpa [h] using ih ({ st.1 with sns := st.1.sns ++ [kv] }, st.2 ++ [kv.2])
    · simpa [h] using ih st

theorem mem_insSorted (x y : String) :
    ∀ l : List String, y ∈ insSorted x l ↔ y = x ∨ y ∈ l := by
  intro l
  induction l with
  | nil => simp [insSorted]
  | cons z t ih =>
    unfold insSorted
    by_cases h : strLe x z
    · simp [h]
    · rw [if_neg h]
      constructor
      · intro hm
        rcases List.mem_cons.mp hm with rfl | hm'
        · exact Or.inr (List.mem_cons_self _ _)
        · rcases ih.mp hm' with rfl | hm''
          · exact Or.inl rfl
          · exact Or.inr (List.mem_cons_of_mem _ hm'')
      · intro hm
        rcases hm with rfl | hm'
        · exact List.mem_cons_of_mem _ (ih.mpr (Or.inl rfl))
        · rcases List.mem_cons.mp hm' with rfl | hm''
          · exact List.mem_cons_self _ _
          · exact List.mem_cons_of_mem _ (ih.mpr (Or.inr hm''))

theorem mem_sortStrings (y : String) :
    ∀ l : List String, y ∈ sortStrings l ↔ y ∈ l := by
  intro l
  induction l with
  | nil => simp [sortStrings]
  | cons x t ih =>
    unfold sortStrings
    rw [mem_insSorted, ih]
    simp

theorem mem_sorted_dedup (y : String) (l : List String) :
    y ∈ sortStrings (dedupStr l) ↔ y ∈ l := by
  rw [mem_sortStrings]
  unfold dedupStr
  exact List.mem_dedup

/-! ## C8: per-page e-mail selection -/

theorem stepEmails_email_rule (page : PageContent) (st : ExtractionResult × List String) :
    (stepEmails page st).1.email_main =
      (if st.1.email_main = none then
        (if (_extract_emails_from_page page).filter (fun e => _is_role_email e) ≠ [] then
          ((_extract_emails_from_page page).filter (fun e => _is_role_email e)).head?
        else (_extract_emails_from_page page).head?)
       else st.1.email_main) ∧
    (stepEmails page st).1.email_role_based =
      st.1.email_role_based ++ (_extract_emails_from_page page).filter (fun e => _is_role_email e) := by
  unfold stepEmails
  by_cases hm : st.1.email_main = none
  · by_cases hr : (_extract_emails_from_page page).filter (fun e => _is_role_email e) ≠ []
    · simp [hm, hr]
    · have hr' : (_extract_emails_from_page page).filter (fun e => _is_role_email e) = [] :=
        not_not.mp hr
      by_cases he : (_extract_emails_from_page page) ≠ []
      · simp [hm, hr', he]
      · have he' : _extract_emails_from_page page = [] := not_not.mp he
        simp [hm, hr', he']
  · by_cases hr : (_extract_emails_from_page page).filter (fun e => _is_role_email e) ≠ []
    · simp [hm, hr]
    · have hr' : (_extract_emails_from_page page).filter (fun e => _is_role_email e) = [] :=
        not_not.mp hr
      simp [hm, hr']

/-- C8 (amended): per processed page, the e-mails are collected into a
deduplicated, lexicographically sorted list; when that list contains
role-based e-mails its first (sorted, not scan-order) role-based entry
becomes `email_main` if still unset, otherwise its first entry does; all
role-based e-mails of the page are appended to the role-based accumulator. -/
theorem processPage_email_rule (st : ExtractionResult × List String) (page : PageContent) :
    (processPage st page).1.email_main =
      (if st.1.email_main = none then
        (if (_extract_emails_from_page page).filter (fun e => _is_role_email e) ≠ [] then
          ((_extract_emails_from_page page).filter (fun e => _is_role_email e)).head?
        else (_extract_emails_from_page page).head?)
       else st.1.email_main) ∧
    (processPage st page).1.email_role_based =
      st.1.email_role_based ++ (_extract_emails_from_page page).filter (fun e => _is_role_email e) := by
  unfold processPage
  obtain ⟨-, hs1, hs2, -, -, -⟩ := stepSns_preserves page
    (stepPhoneFax page (stepEmails page (stepContact page st)))
  obtain ⟨-, hp1, hp2, -, -⟩ := stepPhoneFax_preserves page (stepEmails page (stepContact page st))
  obtain ⟨he1, he2⟩ := stepEmails_email_rule page (stepContact page st)
  obtain ⟨hc1, hc2, -, -, -, -⟩ := stepContact_preserves page st
  rw [hs1, hs2, hp1, hp2, he1, he2, hc1, hc2]
  exact ⟨rfl, rfl⟩

/-- C8 is false as stated: the first e-mail in scan order (the first `mailto:`
anchor, `zinfo@ex.jp`, a role-based address) does not become `email_main`;
the per-page e-mail list is sorted first, so the alphabetically first
role-based address `ainfo@ex.jp` wins. -/
theorem email_main_scan_order_counterexample :
    ((⟨"https://ex.jp/", "",
        [⟨"z", "mailto:zinfo@ex.jp"⟩, ⟨"a", "mailto:ainfo@ex.jp"⟩], []⟩ :
      PageContent).anchors.map (fun a => a.href) =
        ["mailto:zinfo@ex.jp", "mailto:ainfo@ex.jp"]) ∧
    _is_role_email "zinfo@ex.jp" = true ∧ _is_role_email "ainfo@ex.jp" = true ∧
    (extract_contact_info
      [⟨"https://ex.jp/", "", [⟨"z", "mailto:zinfo@ex.jp"⟩, ⟨"a", "mailto:ainfo@ex.jp"⟩], []⟩]
      "https://ex.jp/").email_main = some "ainfo@ex.jp" ∧
    (extract_contact_info
      [⟨"https://ex.jp/", "", [⟨"z", "mailto:zinfo@ex.jp"⟩, ⟨"a", "mailto:ainfo@ex.jp"⟩], []⟩]
      "https://ex.jp/").email_main ≠ some "zinfo@ex.jp" := by
  refine ⟨by decide, by decide, by decide, by decide, by decide⟩

/-! ## C4: guessed e-mails -/

theorem processPage_email_guessed (st : ExtractionResult × List String) (page : PageContent) :
    (processPage st page).1.email_guessed = st.1.email_guessed := by
  unfold processPage
  obtain ⟨-, -, -, hs, -, -⟩ := stepSns_preserves page
    (stepPhoneFax page (stepEmails page (stepContact page st)))
  obtain ⟨-, -, -, hp, -⟩ := stepPhoneFax_preserves page (stepEmails page (stepContact page st))
  obtain ⟨-, he, -, -, -⟩ := stepEmails_preserves page (stepContact page st)
  obtain ⟨-, -, hc, -, -, -⟩ := stepContact_preserves page st
  rw [hs, hp, he, hc]

theorem foldl_no_emails (pages : List PageContent)
    (hno : ∀ p ∈ pages, _extract_emails_from_page p = []) :
    ∀ st : ExtractionResult × List String,
      (pages.foldl processPage st).1.email_main = st.1.email_main ∧
      (pages.foldl processPage st).1.email_role_based = st.1.email_role_based ∧
      (pages.foldl processPage st).1.email_guessed = st.1.email_guessed := by
  induction pages with
  | nil => intro st; exact ⟨rfl, rfl, rfl⟩
  | cons p rest ih =>
    intro st
    have hp : _extract_emails_from_page p = [] := hno p (List.mem_cons_self p rest)
    have hrest : ∀ q ∈ rest, _extract_emails_from_page q = [] :=
      fun q hq => hno q (List.mem_cons_of_mem p hq)
    obtain ⟨ih1, ih2, ih3⟩ := ih hrest (processPage st p)
    obtain ⟨hm, hr⟩ := processPage_email_rule st p
    rw [hp] at hm hr
    simp only [List.filter_nil, List.head?_nil, List.append_nil] at hm hr
    refine ⟨?_, ?_, ?_⟩
    · rw [List.foldl_cons, ih1, hm]
      cases hmain : st.1.email_main <;> simp [hmain]
    · rw [List.foldl_cons, ih2, hr]
    · rw [List.foldl_cons, ih3, processPage_email_guessed]

theorem strToLower_eq_empty (s : String) : strToLower s = "" ↔ s = "" := by
  constructor
  · intro h
    have hd := congrArg String.data h
    have : s.data.map charToLower = [] := hd
    have hnil : s.data = [] := List.map_eq_nil_iff.mp this
    cases s with
    | mk data =>
      simp only at hnil
      rw [hnil]
  · intro h
    rw [h]
    decide

theorem guess_role_emails_eq (domain : String) (h : domain ≠ "") :
    _guess_role_emails domain =
      ["info@" ++ strToLower domain, "contact@" ++ strToLower domain,
       "sales@" ++ strToLower domain, "support@" ++ strToLower domain,
       "inquiry@" ++ strToLower domain] := by
  unfold _guess_role_emails
  rw [if_neg (fun hl => h ((strToLower_eq_empty domain).mp hl))]

/-- C4 (amended): when no page yields any e-mail and the official URL has a
non-empty network location, `email_guessed` consists exactly of the five
role-prefix guesses formed against that host (`urlparse(base_url).netloc`,
lower-cased) — not the public-suffix registrable domain — and `email_main`
becomes the first guess, `info@` the lower-cased host. -/
theorem guessed_emails_use_host (pages : List PageContent) (base_url : String)
    (hno : ∀ p ∈ pages, _extract_emails_from_page p = [])
    (hhost : urlNetloc base_url ≠ "") :
    (∀ e, e ∈ (extract_contact_info pages base_url).email_guessed ↔
      e ∈ _guess_role_emails (urlNetloc base_url)) ∧
    (extract_contact_info pages base_url).email_main =
      some ("info@" ++ strToLower (urlNetloc base_url)) := by
  obtain ⟨h1, h2, h3⟩ := foldl_no_emails pages hno ({}, [])
  have hmain : (pages.foldl processPage ({}, [])).1.email_main = none := h1
  have hrb : (pages.foldl processPage ({}, [])).1.email_role_based = [] := h2
  have hg : (pages.foldl processPage ({}, [])).1.email_guessed = [] := h3
  have hge := guess_role_emails_eq (urlNetloc base_url) hhost
  have hgne : _guess_role_emails (urlNetloc base_url) ≠ [] := by
    rw [hge]
    exact List.cons_ne_nil _ _
  constructor
  · intro e
    have hgoal : (extract_contact_info pages base_url).email_guessed =
        sortStrings (dedupStr (_guess_role_emails (urlNetloc base_url))) := by
      simp only [extract_contact_info]
      rw [hrb, hmain, hg]
      simp [hgne]
    rw [hgoal, mem_sorted_dedup]
  · have hm : (extract_contact_info pages base_url).email_main =
        (_guess_role_emails (urlNetloc base_url)).head? := by
      simp only [extract_contact_info]
      rw [hrb, hmain, hg]
      simp [hgne]
    rw [hm, hge]
    rfl

/-- C4 is false as stated: with official URL `https://www.example.co.jp/` the
registrable domain is `example.co.jp`, yet the guesses target the full host
`www.example.co.jp`, so `info@example.co.jp` is absent and `email_main` is not
the registrable-domain guess. -/
theorem guessed_emails_registrable_counterexample :
    pick_best_domain "https://www.example.co.jp/" = "example.co.jp" ∧
    "info@example.co.jp" ∉
      (extract_contact_info [] "https://www.example.co.jp/").email_guessed ∧
    "info@www.example.co.jp" ∈
      (extract_contact_info [] "https://www.example.co.jp/").email_guessed ∧
    (extract_contact_info [] "https://www.example.co.jp/").email_main ≠
      some "info@example.co.jp" := by
  refine ⟨by decide, by decide, by decide, by decide⟩

/-- Witness for the amended C4 with no pages and a `www.`-prefixed host. -/
theorem guessed_emails_use_host_witness :
    (∀ e, e ∈ (extract_contact_info [] "https://www.example.co.jp/").email_guessed ↔
      e ∈ _guess_role_emails (urlNetloc "https://www.example.co.jp/")) ∧
    (extract_contact_info [] "https://www.example.co.jp/").email_main =
      some ("info@" ++ strToLower (urlNetloc "https://www.example.co.jp/")) :=
  guessed_emails_use_host [] "https://www.example.co.jp/" (by simp) (by decide)

/-! ## C7: social-link selection -/

theorem lookupKey_upsert_self (k v : String) :
    ∀ l : List (String × String), lookupKey k (upsert k v l) = some v := by
  intro l
  induction l with
  | nil => simp [upsert, lookupKey]
  | cons kv t ih =>
    unfold upsert
    by_cases h : kv.1 = k
    · simp [h, lookupKey]
    · simp [h, lookupKey, ih]

theorem lookupKey_upsert_ne (k k' v : String) (h : k' ≠ k) :
    ∀ l : List (String × String), lookupKey k (upsert k' v l) = lookupKey k l := by
  intro l
  induction l with
  | nil => simp [upsert, lookupKey, h]
  | cons kv t ih =>
    unfold upsert
    by_cases hk : kv.1 = k'
    · simp [hk, lookupKey, h]
    · by_cases hk2 : kv.1 = k <;> simp [hk, hk2, lookupKey, ih, Ne.symm h]

theorem lookupKey_rowFold (abs_url lower k : String) :
    ∀ (rows : List (String × List String)) (res : List (String × String)),
      lookupKey k (rows.foldl (fun r kp =>
        if kp.2.any (fun pat => strHasSub lower pat) then upsert kp.1 abs_url r else r) res) =
      if rows.any (fun kp => kp.1 == k && kp.2.any (fun pat => strHasSub lower pat))
      then some abs_url else lookupKey k res := by
  intro rows
  induction rows with
  | nil => intro res; simp
  | cons kp rest ih =>
    intro res
    rw [List.foldl_cons]
    by_cases hm : kp.2.any (fun pat => strHasSub lower pat)
    · rw [if_pos hm, ih]
      by_cases hk : kp.1 = k
      · subst hk
        rw [lookupKey_upsert_self, ite_self, List.any_cons]
        have h1 : (kp.1 == kp.1 && kp.2.any fun pat => strHasSub lower pat) = true := by
          rw [hm]; simp
        rw [h1, Bool.true_or, if_pos rfl]
      · rw [lookupKey_upsert_ne k kp.1 abs_url hk, List.any_cons]
        have h1 : (kp.1 == k && kp.2.any fun pat => strHasSub lower pat) = false := by
          simp [hk]
        rw [h1, Bool.false_or]
    · rw [if_neg hm, ih, List.any_cons]
      rw [Bool.not_eq_true] at hm
      have h1 : (kp.1 == k && kp.2.any fun pat => strHasSub lower pat) = false := by
        rw [hm]; simp
      rw [h1, Bool.false_or]

theorem rows_any_eq_find (k : String) (p : String → Bool) :
    ∀ rows : List (String × List String), (rows.map Prod.fst).Nodup →
      rows.any (fun kp => kp.1 == k && kp.2.any p) =
        (match rows.find? (fun kp => kp.1 = k) with
         | some kp => kp.2.any p
         | none => false) := by
  intro rows
  induction rows with
  | nil => intro _; simp
  | cons kp rest ih =>
    intro hnd
    rw [List.map_cons, List.nodup_cons] at hnd
    by_cases hk : kp.1 = k
    · have hrest : rest.any (fun kp2 => kp2.1 == k && kp2.2.any p) = false := by
        rw [List.any_eq_false]
        intro kp2 h2
        have hne : kp2.1 ≠ k := by
          intro he
          apply hnd.1
          rw [← hk] at he
          exact List.mem_map.mpr ⟨kp2, h2, he⟩
        simp [hne]
      have h0 : (kp.1 == k) = true := by simp [hk]
      rw [List.any_cons, hrest, Bool.or_false, h0, Bool.true_and,
        List.find?_cons_of_pos _ (by simp [hk])]
    · have h0 : (kp.1 == k) = false := by simp [hk]
      rw [List.any_cons, h0, Bool.false_and, Bool.false_or, ih hnd.2,
        List.find?_cons_of_neg _ (by simp [hk])]

theorem rows_any_eq_patternsFor (k : String) (p : String → Bool) :
    SNS_PATTERNS.any (fun kp => kp.1 == k && kp.2.any p) = (patternsFor k).any p := by
  rw [rows_any_eq_find k p SNS_PATTERNS (by decide)]
  unfold patternsFor
  cases SNS_PATTERNS.find? (fun kp => kp.1 = k) <;> simp

theorem getLast?_append_right_ne {α : Type} (l₁ l₂ : List α) (h : l₂ ≠ []) :
    (l₁ ++ l₂).getLast? = l₂.getLast? := by
  induction l₁ with
  | nil => rfl
  | cons x t ih =>
    rw [List.cons_append, List.getLast?_cons]
    rw [ih]
    cases l₂ with
    | nil => exact absurd rfl h
    | cons y t2 =>
      have : (t ++ y :: t2).getLast? = (y :: t2).getLast? := ih
      rw [← this]
      cases hc : (t ++ y :: t2).getLast? with
      | none =>
        exact absurd (List.getLast?_eq_none_iff.mp hc) (by simp)
      | some v => simp

theorem lookupKey_snsAnchorFold (k u : String) :
    ∀ (anchors : List Anchor) (res : List (String × String)),
      lookupKey k (anchors.foldl (fun results a =>
        SNS_PATTERNS.foldl (fun r kp =>
          if kp.2.any (fun pat => strHasSub (strToLower (urljoin u a.href)) pat)
          then upsert kp.1 (urljoin u a.href) r else r) results) res) =
      (match (snsMatches k u anchors).getLast? with
       | some v => some v
       | none => lookupKey k res) := by
  intro anchors
  induction anchors with
  | nil => intro res; simp [snsMatches]
  | cons a rest ih =>
    intro res
    rw [List.foldl_cons, ih]
    have hrow := lookupKey_rowFold (urljoin u a.href) (strToLower (urljoin u a.href)) k
      SNS_PATTERNS res
    rw [rows_any_eq_patternsFor] at hrow
    have hcons : snsMatches k u (a :: rest) =
        (if (patternsFor k).any (fun pat => strHasSub (strToLower (urljoin u a.href)) pat)
         then [urljoin u a.href] else []) ++ snsMatches k u rest := by
      unfold snsMatches
      rw [List.filterMap_cons]
      by_cases hm : (patternsFor k).any (fun pat => strHasSub (strToLower (urljoin u a.href)) pat) <;>
        simp [hm]
    rw [hcons]
    rcases hl : (snsMatches k u rest).getLast? with _ | v
    · have hnil : snsMatches k u rest = [] := List.getLast?_eq_none_iff.mp hl
      rw [hnil, List.append_nil]
      by_cases hm : (patternsFor k).any (fun pat => strHasSub (strToLower (urljoin u a.href)) pat)
      · rw [hrow, if_pos hm]
        simp [hm]
      · rw [hrow, if_neg hm]
        simp [hm]
    · have hne : snsMatches k u rest ≠ [] := by
        intro hempty
        rw [hempty] at hl
        cases hl
      rw [getLast?_append_right_ne _ _ hne, hl]

theorem lookupKey_extract_sns_links (k u : String) (anchors : List Anchor) :
    lookupKey k (_extract_sns_links anchors u) = (snsMatches k u anchors).getLast? := by
  unfold _extract_sns_links
  rw [lookupKey_snsAnchorFold k u anchors []]
  cases hl : (snsMatches k u anchors).getLast? <;> simp [lookupKey]

theorem lookupKey_append_single (k : String) (kv : String × String) :
    ∀ l : List (String × String),
      lookupKey k (l ++ [kv]) =
        (match lookupKey k l with
         | some v => some v
         | none => if kv.1 = k then some kv.2 else none) := by
  intro l
  induction l with
  | nil => simp [lookupKey]
  | cons kv2 t ih =>
    rw [List.cons_append]
    unfold lookupKey
    by_cases h : kv2.1 = k <;> simp [h, ih]

theorem lookupKey_guard_fold (k : String) :
    ∀ (kvs : List (String × String)) (st : ExtractionResult × List String),
      lookupKey k ((kvs.foldl (fun st kv =>
        if lookupKey kv.1 st.1.sns = none then
          ({ st.1 with sns := st.1.sns ++ [kv] }, st.2 ++ [kv.2])
        else st) st)).1.sns =
      (match lookupKey k st.1.sns with
       | some v => some v
       | none => lookupKey k kvs) := by
  intro kvs
  induction kvs with
  | nil =>
    intro st
    cases h : lookupKey k st.1.sns <;> simp [h, lookupKey]
  | cons kv rest ih =>
    intro st
    rw [List.foldl_cons]
    by_cases hg : lookupKey kv.1 st.1.sns = none
    · rw [if_pos hg, ih]
      simp only []
      rw [lookupKey_append_single]
      cases hst : lookupKey k st.1.sns with
      | some v => simp [lookupKey]
      | none =>
        by_cases hk : kv.1 = k
        · simp [hk, lookupKey]
        · simp [hk, lookupKey]
    · rw [if_neg hg, ih]
      cases hst : lookupKey k st.1.sns with
      | some v => rfl
      | none =>
        have hk : kv.1 ≠ k := by
          intro he
          rw [he, hst] at hg
          exact hg rfl
        simp [lookupKey, hk]

theorem lookupKey_processPage_sns (st : ExtractionResult × List String) (page : PageContent)
    (k : String) :
    lookupKey k (processPage st page).1.sns =
      (match lookupKey k st.1.sns with
       | some v => some v
       | none => lookupKey k (_extract_sns_links page.anchors page.url)) := by
  unfold processPage stepSns
  rw [lookupKey_guard_fold]
  obtain ⟨-, -, -, -, hpf⟩ := stepPhoneFax_preserves page (stepEmails page (stepContact page st))
  obtain ⟨-, -, -, -, hem⟩ := stepEmails_preserves page (stepContact page st)
  obtain ⟨-, -, -, -, -, hct⟩ := stepContact_preserves page st
  rw [hpf, hem, hct]

theorem lookupKey_foldl_pages (k : String) :
    ∀ (pages : List PageContent) (st : ExtractionResult × List String),
      lookupKey k (pages.foldl processPage st).1.sns =
        (match lookupKey k st.1.sns with
         | some v => some v
         | none => pages.findSome? (fun p => lookupKey k (_extract_sns_links p.anchors p.url))) := by
  intro pages
  induction pages with
  | nil =>
    intro st
    cases h : lookupKey k st.1.sns <;> simp [h]
  | cons p rest ih =>
    intro st
    rw [List.foldl_cons, ih, lookupKey_processPage_sns]
    cases hst : lookupKey k st.1.sns with
    | some v => rfl
    | none =>
      rw [List.findSome?_cons]
      cases hp : lookupKey k (_extract_sns_links p.anchors p.url) <;> simp [hp]

theorem extract_sns_eq (pages : List PageContent) (base_url : String) :
    (extract_contact_info pages base_url).sns =
      (pages.foldl processPage ({}, [])).1.sns := by
  simp only [extract_contact_info]
  split
  · split <;> rfl
  · rfl

/-- C7 (amended): for each platform key, the stored `sns` entry comes from the
first page (in supplied order) whose anchors contain any match for that
platform; within that page it is the last matching anchor (in document order)
that wins — `_extract_sns_links` overwrites the page-local entry on every
match — not the first matching anchor of the crawl. -/
theorem sns_first_page_last_anchor (pages : List PageContent) (base_url k : String) :
    lookupKey k (extract_contact_info pages base_url).sns =
      pages.findSome? (fun p => lookupKey k (_extract_sns_links p.anchors p.url)) ∧
    ∀ (anchors : List Anchor) (u : String),
      lookupKey k (_extract_sns_links anchors u) = (snsMatches k u anchors).getLast? := by
  constructor
  · rw [extract_sns_eq, lookupKey_foldl_pages]
    rfl
  · exact fun anchors u => lookupKey_extract_sns_links k u anchors

/-- C7 is false as stated: both anchors of this single page match the facebook
patterns, the first matching anchor URL across the crawl is
`https://facebook.com/a`, yet the stored entry is `https://facebook.com/b` —
within a page the last match overwrites earlier ones. -/
theorem sns_first_match_counterexample :
    snsMatches "sns_facebook" "https://ex.jp/"
        [⟨"", "https://facebook.com/a"⟩, ⟨"", "https://facebook.com/b"⟩] =
      ["https://facebook.com/a", "https://facebook.com/b"] ∧
    lookupKey "sns_facebook" (extract_contact_info
        [⟨"https://ex.jp/", "",
          [⟨"", "https://facebook.com/a"⟩, ⟨"", "https://facebook.com/b"⟩], []⟩]
        "https://ex.jp/").sns = some "https://facebook.com/b" := by
  refine ⟨by decide, by decide⟩

/-! ## C9: evidence sources -/

theorem mem_keys_upsert (k v : String) :
    ∀ (l : List (String × String)) (x : String),
      x ∈ (upsert k v l).map Prod.fst → x ∈ l.map Prod.fst ∨ x = k := by
  intro l
  induction l with
  | nil =>
    intro x h
    simp [upsert] at h
    exact Or.inr h
  | cons kv2 t ih =>
    intro x h
    unfold upsert at h
    by_cases hk : kv2.1 = k
    · rw [if_pos hk] at h
      rcases List.mem_cons.mp h with rfl | h2
      · exact Or.inl (by rw [List.map_cons, hk]; exact List.mem_cons_self _ _)
      · exact Or.inl (List.mem_cons_of_mem _ h2)
    · rw [if_neg hk] at h
      rcases List.mem_cons.mp h with rfl | h2
      · exact Or.inl (List.mem_cons_self _ _)
      · rcases ih x h2 with h3 | h3
        · exact Or.inl (List.mem_cons_of_mem _ h3)
        · exact Or.inr h3

theorem nodup_keys_upsert (k v : String) :
    ∀ l : List (String × String),
      (l.map Prod.fst).Nodup → ((upsert k v l).map Prod.fst).Nodup := by
  intro l
  induction l with
  | nil => intro _; simp [upsert]
  | cons kv t ih =>
    intro hnd
    rw [List.map_cons, List.nodup_cons] at hnd
    unfold upsert
    by_cases hk : kv.1 = k
    · rw [if_pos hk, List.map_cons, List.nodup_cons]
      exact ⟨by rw [← hk]; exact hnd.1, hnd.2⟩
    · rw [if_neg hk, List.map_cons, List.nodup_cons]
      refine ⟨?_, ih hnd.2⟩
      intro hmem
      rcases mem_keys_upsert k v t kv.1 hmem with h | h
      · exact hnd.1 h
      · exact hk h

theorem sns_links_keys_nodup (anchors : List Anchor) (u : String) :
    ((_extract_sns_links anchors u).map Prod.fst).Nodup := by
  unfold _extract_sns_links
  have inner : ∀ (rows : List (String × List String)) (lower abs_url : String)
      (res : List (String × String)), (res.map Prod.fst).Nodup →
      ((rows.foldl (fun r kp =>
        if kp.2.any (fun pat => strHasSub lower pat) then upsert kp.1 abs_url r else r) res).map
        Prod.fst).Nodup := by
    intro rows
    induction rows with
    | nil => intro lower abs_url res h; exact h
    | cons kp rest ih =>
      intro lower abs_url res h
      rw [List.foldl_cons]
      by_cases hm : kp.2.any (fun pat => strHasSub lower pat)
      · rw [if_pos hm]
        exact ih lower abs_url _ (nodup_keys_upsert kp.1 abs_url res h)
      · rw [if_neg hm]
        exact ih lower abs_url res h
  have outer : ∀ (as : List Anchor) (res : List (String × String)),
      (res.map Prod.fst).Nodup →
      ((as.foldl (fun results a =>
        SNS_PATTERNS.foldl (fun r kp =>
          if kp.2.any (fun pat => strHasSub (strToLower (urljoin u a.href)) pat)
          then upsert kp.1 (urljoin u a.href) r else r) results) res).map Prod.fst).Nodup := by
    intro as
    induction as with
    | nil => intro res h; exact h
    | cons a rest ih =>
      intro res h
      rw [List.foldl_cons]
      exact ih _ (inner SNS_PATTERNS _ _ res h)
  exact outer anchors [] (by simp)

theorem lookupKey_of_mem_nodup :
    ∀ l : List (String × String), (l.map Prod.fst).Nodup →
      ∀ kv ∈ l, lookupKey kv.1 l = some kv.2 := by
  intro l
  induction l with
  | nil => intro _ kv h; cases h
  | cons kv2 t ih =>
    intro hnd kv h
    rw [List.map_cons, List.nodup_cons] at hnd
    rcases List.mem_cons.mp h with rfl | h2
    · unfold lookupKey
      rw [if_pos rfl]
    · unfold lookupKey
      have hne : kv2.1 ≠ kv.1 := by
        intro he
        exact hnd.1 (he ▸ List.mem_map.mpr ⟨kv, h2, rfl⟩)
      rw [if_neg hne]
      exact ih hnd.2 kv h2

theorem stepContact_evidence (page : PageContent) (st : ExtractionResult × List String)
    (x : String) (h : x ∈ (stepContact page st).2) :
    x ∈ st.2 ∨ _find_contact_link page.anchors page.url = some x := by
  unfold stepContact at h
  by_cases hc : st.1.contact_form_url = none
  · rcases hf : _find_contact_link page.anchors page.url with _ | link
    · rw [if_pos hc, hf] at h
      exact Or.inl h
    · rw [if_pos hc, hf] at h
      rcases List.mem_append.mp h with h2 | h2
      · exact Or.inl h2
      · rcases List.mem_singleton.mp h2 with rfl
        exact Or.inr rfl
  · rw [if_neg hc] at h
    exact Or.inl h

theorem stepEmails_evidence (page : PageContent) (st : ExtractionResult × List String)
    (x : String) (h : x ∈ (stepEmails page st).2) :
    x ∈ st.2 ∨ (x = page.url ∧ _extract_emails_from_page page ≠ []) := by
  have h2 : x ∈ (if _extract_emails_from_page page ≠ [] then st.2 ++ [page.url] else st.2) := h
  by_cases he : _extract_emails_from_page page ≠ []
  · rw [if_pos he] at h2
    rcases List.mem_append.mp h2 with h3 | h3
    · exact Or.inl h3
    · exact Or.inr ⟨List.mem_singleton.mp h3, he⟩
  · rw [if_neg he] at h2
    exact Or.inl h2

theorem stepPhoneFax_evidence (page : PageContent) (st : ExtractionResult × List String)
    (x : String) (h : x ∈ (stepPhoneFax page st).2) :
    x ∈ st.2 ∨ (x = page.url ∧
      ((_extract_phone_fax page).1 ≠ none ∨ (_extract_phone_fax page).2 ≠ none)) := by
  by_cases hnone : (_extract_phone_fax page).1 = none ∧ (_extract_phone_fax page).2 = none
  · have heq : stepPhoneFax page st = st := by
      simp only [stepPhoneFax, hnone.1, hnone.2]
    rw [heq] at h
    exact Or.inl h
  · have hpf : (_extract_phone_fax page).1 ≠ none ∨ (_extract_phone_fax page).2 ≠ none := by
      tauto
    have hx : x ∈ st.2 ∨ x = page.url := by
      simp only [stepPhoneFax] at h
      rcases hp : (_extract_phone_fax page).1 with _ | phone <;>
        rcases hq : (_extract_phone_fax page).2 with _ | fax <;>
        simp only [hp, hq] at h
      · exact Or.inl h
      · by_cases h2 : st.1.fax_main = none
        · simp [h2] at h
          tauto
        · simp [h2] at h
          exact Or.inl h
      · by_cases h1 : st.1.phone_main = none
        · simp [h1] at h
          tauto
        · simp [h1] at h
          exact Or.inl h
      · by_cases h1 : st.1.phone_main = none <;> by_cases h2 : st.1.fax_main = none <;>
          simp [h1, h2] at h <;> tauto
    rcases hx with h3 | h3
    · exact Or.inl h3
    · exact Or.inr ⟨h3, hpf⟩

theorem stepSns_evidence (page : PageContent) (st : ExtractionResult × List String)
    (x : String) (h : x ∈ (stepSns page st).2) :
    x ∈ st.2 ∨ ∃ kv ∈ _extract_sns_links page.anchors page.url, x = kv.2 := by
  unfold stepSns at h
  have gen : ∀ (kvs : List (String × String)) (st0 : ExtractionResult × List String),
      x ∈ (kvs.foldl (fun st kv =>
        if lookupKey kv.1 st.1.sns = none then
          ({ st.1 with sns := st.1.sns ++ [kv] }, st.2 ++ [kv.2])
        else st) st0).2 →
      x ∈ st0.2 ∨ ∃ kv ∈ kvs, x = kv.2 := by
    intro kvs
    induction kvs with
    | nil => intro st0 h0; exact Or.inl h0
    | cons kv rest ih =>
      intro st0 h0
      rw [List.foldl_cons] at h0
      by_cases hg : lookupKey kv.1 st0.1.sns = none
      · rw [if_pos hg] at h0
        rcases ih _ h0 with h1 | ⟨kv2, h2, h3⟩
        · rcases List.mem_append.mp h1 with h2 | h2
          · exact Or.inl h2
          · exact Or.inr ⟨kv, List.mem_cons_self _ _, List.mem_singleton.mp h2⟩
        · exact Or.inr ⟨kv2, List.mem_cons_of_mem _ h2, h3⟩
      · rw [if_neg hg] at h0
        rcases ih _ h0 with h1 | ⟨kv2, h2, h3⟩
        · exact Or.inl h1
        · exact Or.inr ⟨kv2, List.mem_cons_of_mem _ h2, h3⟩
  exact gen _ _ h

theorem processPage_evidence (st : ExtractionResult × List String) (page : PageContent)
    (x : String) (h : x ∈ (processPage st page).2) : x ∈ st.2 ∨ pageFact page x := by
  unfold processPage at h
  rcases stepSns_evidence page _ x h with h1 | ⟨kv, hkv, rfl⟩
  · rcases stepPhoneFax_evidence page _ x h1 with h2 | ⟨hx, hpf⟩
    · rcases stepEmails_evidence page _ x h2 with h3 | ⟨hx, he⟩
      · rcases stepContact_evidence page st x h3 with h4 | hf
        · exact Or.inl h4
        · exact Or.inr (Or.inr (Or.inl hf))
      · exact Or.inr (Or.inl ⟨hx, Or.inl he⟩)
    · exact Or.inr (Or.inl ⟨hx, Or.inr hpf⟩)
  · refine Or.inr (Or.inr (Or.inr ⟨kv.1, ?_⟩))
    exact lookupKey_of_mem_nodup _ (sns_links_keys_nodup page.anchors page.url) kv hkv

theorem foldl_pages_evidence :
    ∀ (pages : List PageContent) (st : ExtractionResult × List String) (x : String),
      x ∈ (pages.foldl processPage st).2 → x ∈ st.2 ∨ ∃ p ∈ pages, pageFact p x := by
  intro pages
  induction pages with
  | nil => intro st x h; exact Or.inl h
  | cons p rest ih =>
    intro st x h
    rw [List.foldl_cons] at h
    rcases ih _ x h with h1 | ⟨q, hq, hfact⟩
    · rcases processPage_evidence st p x h1 with h2 | h2
      · exact Or.inl h2
      · exact Or.inr ⟨p, List.mem_cons_self _ _, h2⟩
    · exact Or.inr ⟨q, List.mem_cons_of_mem _ hq, hfact⟩

/-- C9 (amended): every entry of `evidence_sources` is either evidence from
one of the supplied pages — that page's URL when it yielded an e-mail or a
phone/fax, the contact-form link found on it, or one of its stored social
URLs — or one of the synthesized role-guess e-mail addresses, which are not
URLs at all. -/
theorem evidence_only_from_facts_or_guesses (pages : List PageContent) (base_url : String) :
    ∀ e ∈ (extract_contact_info pages base_url).evidence_sources,
      (∃ p ∈ pages, pageFact p e) ∨ e ∈ _guess_role_emails (urlNetloc base_url) := by
  intro e h
  simp only [extract_contact_info] at h
  by_cases hc : (pages.foldl processPage ({}, [])).1.email_role_based = []
  · rw [if_pos hc] at h
    rw [mem_sorted_dedup] at h
    have h2 : e ∈ (pages.foldl processPage
        (({} : ExtractionResult), ([] : List String))).2 ++
        _guess_role_emails (urlNetloc base_url) := h
    rcases List.mem_append.mp h2 with h3 | h3
    · rcases foldl_pages_evidence pages _ e h3 with h4 | h4
      · cases h4
      · exact Or.inl h4
    · exact Or.inr h3
  · rw [if_neg hc] at h
    rw [mem_sorted_dedup] at h
    rcases foldl_pages_evidence pages _ e h with h4 | h4
    · cases h4
    · exact Or.inl h4

/-- C9 is false as stated: with no pages at all, the evidence list consists of
the five guessed e-mail addresses; `contact@www.example.co.jp` is recorded as
evidence although it is not a URL (it has no scheme) and no source produced
it. -/
theorem evidence_not_url_counterexample :
    "contact@www.example.co.jp" ∈
      (extract_contact_info [] "https://www.example.co.jp/").evidence_sources ∧
    strHasSub "contact@www.example.co.jp" "://" = false ∧
    urlScheme "contact@www.example.co.jp" = "" := by
  refine ⟨by decide, by decide, by decide⟩

/-- Witness for the amended C9: the guessed address found in the evidence of a
page-less extraction is accounted for by the guess disjunct. -/
theorem evidence_only_from_facts_or_guesses_witness :
    (∃ p ∈ ([] : List PageContent), pageFact p "contact@www.example.co.jp") ∨
      "contact@www.example.co.jp" ∈
        _guess_role_emails (urlNetloc "https://www.example.co.jp/") :=
  evidence_only_from_facts_or_guesses [] "https://www.example.co.jp/"
    "contact@www.example.co.jp" (by decide)
